import Mathlib

/-!
Verification development for the frontend tree cache (`services/tree_cache.js`).

The cache state is embedded as a functional record `Store`: JavaScript objects
used as string-keyed dictionaries become functions `String → Option V`
(`StrMap`), JavaScript arrays become `List`, and in-place object mutation
becomes functional update of the corresponding map entry.  A JavaScript
exception (a `TypeError` from dereferencing `undefined`) is embedded as the
`none` result of an `Option`-valued operation.

The entity classes (`NoteShort`, `Branch`, `Attribute` from `entities/` and
`LoadResults` from `load_results.js`) are not part of the provided sources;
their operations are modelled from the specification and marked as such.
-/

/-- String-keyed dictionary, embedding a JavaScript object used as a map. -/
def StrMap (V : Type) : Type := String → Option V

namespace StrMap

/-- The empty dictionary. -/
def empty {V : Type} : StrMap V := fun _ => none

/-- Dictionary update, embedding `obj[k] = v`. -/
def set {V : Type} (m : StrMap V) (k : String) (v : V) : StrMap V :=
  fun q => if q = k then some v else m q

/-- Dictionary removal, embedding `delete obj[k]`. -/
def erase {V : Type} (m : StrMap V) (k : String) : StrMap V :=
  fun q => if q = k then none else m q

theorem set_eq {V : Type} (m : StrMap V) (k : String) (v : V) :
    (m.set k v) k = some v := by
  simp [set]

theorem set_ne {V : Type} (m : StrMap V) (k q : String) (v : V) (h : q ≠ k) :
    (m.set k v) q = m q := by
  simp [set, h]

theorem erase_eq {V : Type} (m : StrMap V) (k : String) :
    (m.erase k) k = none := by
  simp [erase]

theorem erase_ne {V : Type} (m : StrMap V) (k q : String) (h : q ≠ k) :
    (m.erase k) q = m q := by
  simp [erase, h]

end StrMap

/-- One data row, covering every field used by note rows, branch rows,
attribute rows, search-result rows and sync entity payloads.  JavaScript rows
are duck-typed objects; a single record with all fields is a faithful shallow
embedding (fields a given row kind does not use are simply never read).
`prefixVal` embeds the row field named `prefix` in the source. -/
structure Row where
  noteId : String := ""
  parentNoteId : String := ""
  branchId : String := ""
  attributeId : String := ""
  type : String := ""
  title : String := ""
  name : String := ""
  value : String := ""
  prefixVal : String := ""
  notePosition : Int := 0
  isDeleted : Bool := false
  deriving DecidableEq, Repr

/-- Modelled from the spec: the cached note entity (`entities/note_short.js`,
not among the provided sources).  Data model: type, title, ordered list of
child noteIds, ordered list of parent noteIds, mapping parentNoteId→branchId,
mapping childNoteId→branchId, attributeIds owned, attributeIds of relations
targeting this note. -/
structure NoteShort where
  noteId : String
  type : String
  title : String
  parents : List String
  children : List String
  parentToBranch : StrMap String
  childToBranch : StrMap String
  attributes : List String
  targetRelations : List String

/-- The cached branch entity.  `prefixVal` embeds the field named `prefix`. -/
structure Branch where
  branchId : String
  noteId : String
  parentNoteId : String
  prefixVal : String
  notePosition : Int
  deriving DecidableEq, Repr

/-- The cached attribute entity. -/
structure Attribute where
  attributeId : String
  noteId : String
  type : String
  name : String
  value : String
  deriving DecidableEq, Repr

/-- Modelled from the spec: `new NoteShort(this, noteRow)` constructs a fresh
note object from the row with empty adjacency (spec 4.1). -/
def NoteShort.fromRow (row : Row) : NoteShort :=
  { noteId := row.noteId
    type := row.type
    title := row.title
    parents := []
    children := []
    parentToBranch := StrMap.empty
    childToBranch := StrMap.empty
    attributes := []
    targetRelations := [] }

/-- Modelled from the spec: `note.update(entity)` mutates the row fields in
place, preserving adjacency and attribute indices (spec 4.4, note rule:
mutate fields in place, identity preserved). -/
def NoteShort.update (n : NoteShort) (e : Row) : NoteShort :=
  { n with type := e.type, title := e.title }

/-- Modelled from the spec: `note.addParent(parentNoteId, branchId)` from
`entities/note_short.js` (not among the provided sources).  Adds the parent
relationship: appends to the parents list unless already present (spec 4.4:
adds idempotently, no duplicate insertion) and records the
parentNoteId→branchId mapping. -/
def NoteShort.addParent (n : NoteShort) (parentNoteId branchId : String) : NoteShort :=
  { n with
    parents := if n.parents.contains parentNoteId then n.parents else n.parents ++ [parentNoteId]
    parentToBranch := n.parentToBranch.set parentNoteId branchId }

/-- Modelled from the spec: `note.addChild(childNoteId, branchId)`, symmetric
to `addParent`. -/
def NoteShort.addChild (n : NoteShort) (childNoteId branchId : String) : NoteShort :=
  { n with
    children := if n.children.contains childNoteId then n.children else n.children ++ [childNoteId]
    childToBranch := n.childToBranch.set childNoteId branchId }

/-- A branch entity constructed from a row (`new Branch(this, row)`). -/
def Branch.fromRow (row : Row) : Branch :=
  { branchId := row.branchId
    noteId := row.noteId
    parentNoteId := row.parentNoteId
    prefixVal := row.prefixVal
    notePosition := row.notePosition }

/-- Modelled from the spec: `branch.update(entity)` mutates the row fields in
place. -/
def Branch.update (_b : Branch) (e : Row) : Branch :=
  Branch.fromRow e

/-- An attribute entity constructed from a row (`new Attribute(this, row)`). -/
def Attribute.fromRow (row : Row) : Attribute :=
  { attributeId := row.attributeId
    noteId := row.noteId
    type := row.type
    name := row.name
    value := row.value }

/-- Modelled from the spec: `attribute.update(entity)` mutates the row fields
in place. -/
def Attribute.update (_a : Attribute) (e : Row) : Attribute :=
  Attribute.fromRow e

/-- The cache state: `this.notes`, `this.branches`, `this.attributes` and
`this.noteComplementPromises` of the `TreeCache` singleton.  The complement
map records only the presence of a memoized pending fetch, which is all the
cache logic observes of it. -/
structure Store where
  notes : StrMap NoteShort
  branches : StrMap Branch
  attributes : StrMap Attribute
  noteComplementPromises : StrMap Unit

/-- The state right after clearing, before any rows are merged. -/
def Store.empty : Store :=
  { notes := StrMap.empty
    branches := StrMap.empty
    attributes := StrMap.empty
    noteComplementPromises := StrMap.empty }

/-! ## addResp: the batch merge (`TreeCache.addResp`) -/

/-- One iteration of the first detach loop of `addResp`: for a child of the
old note, remove the old note from the child's parents, delete the branch the
child's `parentToBranch` maps the old note to, and delete that mapping. -/
def detachChildStep (noteId : String) (s : Store) (childNoteId : String) : Store :=
  match s.notes childNoteId with
  | none => s
  | some childNote =>
    let childNote := { childNote with parents := childNote.parents.filter (fun p => p ≠ noteId) }
    let s :=
      match childNote.parentToBranch noteId with
      | some bid => { s with branches := s.branches.erase bid }
      | none => s
    let childNote := { childNote with parentToBranch := childNote.parentToBranch.erase noteId }
    { s with notes := s.notes.set childNoteId childNote }

/-- One iteration of the second detach loop of `addResp`, symmetric to
`detachChildStep` for a parent of the old note. -/
def detachParentStep (noteId : String) (s : Store) (parentNoteId : String) : Store :=
  match s.notes parentNoteId with
  | none => s
  | some parentNote =>
    let parentNote := { parentNote with children := parentNote.children.filter (fun c => c ≠ noteId) }
    let s :=
      match parentNote.childToBranch noteId with
      | some bid => { s with branches := s.branches.erase bid }
      | none => s
    let parentNote := { parentNote with childToBranch := parentNote.childToBranch.erase noteId }
    { s with notes := s.notes.set parentNoteId parentNote }

/-- The detach block of `addResp` for one incoming note row: if a note is
already resident at that id, detach it from every resident child and parent.
The second loop iterates the parents list as it stands after the first loop
(in the source both loops read the same live object, so a self-referencing
child list would make the first loop shrink the parents list). -/
def detachOldNote (s : Store) (noteId : String) : Store :=
  match s.notes noteId with
  | none => s
  | some oldNote =>
    let s1 := oldNote.children.foldl (detachChildStep noteId) s
    let parentsNow :=
      match s1.notes noteId with
      | some cur => cur.parents
      | none => oldNote.parents
    parentsNow.foldl (detachParentStep noteId) s1

/-- Processing of one note row by `addResp`: detach any old note at that id,
then install a fresh note constructed from the row. -/
def addNoteRow (s : Store) (row : Row) : Store :=
  let s := detachOldNote s row.noteId
  { s with notes := s.notes.set row.noteId (NoteShort.fromRow row) }

/-- Processing of one branch row by `addResp`: install the branch entity,
then wire the child side if the child note is resident and the parent side if
the parent note is resident.  The parent note is read after the child update,
which matches the source where both reads alias the same live object when the
two endpoints coincide. -/
def addBranchRow (s : Store) (row : Row) : Store :=
  let branch := Branch.fromRow row
  let s := { s with branches := s.branches.set branch.branchId branch }
  let s :=
    match s.notes branch.noteId with
    | some childNote =>
      { s with notes := s.notes.set branch.noteId (childNote.addParent branch.parentNoteId branch.branchId) }
    | none => s
  match s.notes branch.parentNoteId with
  | some parentNote =>
    { s with notes := s.notes.set branch.parentNoteId (parentNote.addChild branch.noteId branch.branchId) }
  | none => s

/-- Processing of one attribute row by `addResp`: install the attribute
entity, then index it on the owner note.  The source reads
`this.notes[attributeRow.noteId]` and dereferences it without a residency
guard; a `none` result embeds the thrown `TypeError` when the owner note is
absent.  For a relation row whose target note is resident, the source pushes
the attribute id onto `note.targetRelations` where `note` is the owner. -/
def addAttributeRow (s : Store) (row : Row) : Option Store :=
  let s := { s with attributes := s.attributes.set row.attributeId (Attribute.fromRow row) }
  match s.notes row.noteId with
  | none => none
  | some note =>
    let note :=
      if note.attributes.contains row.attributeId then note
      else { note with attributes := note.attributes ++ [row.attributeId] }
    let s := { s with notes := s.notes.set row.noteId note }
    if row.type = "relation" then
      match s.notes row.value with
      | some _ =>
        let note :=
          if note.targetRelations.contains row.attributeId then note
          else { note with targetRelations := note.targetRelations ++ [row.attributeId] }
        some { s with notes := s.notes.set row.noteId note }
      | none => some s
    else some s

/-- The batch merge `TreeCache.addResp(noteRows, branchRows, attributeRows)`.
A `none` result embeds the exception thrown by the attribute loop when an
attribute row references an owner note that is not resident. -/
def addResp (s : Store) (noteRows branchRows attributeRows : List Row) : Option Store :=
  let s := noteRows.foldl addNoteRow s
  let s := branchRows.foldl addBranchRow s
  attributeRows.foldlM addAttributeRow s

/-! ## The change-set (`LoadResults` from `load_results.js`) -/

/-- Modelled from the spec: the change-set aggregated by one reconciliation
pass (`load_results.js`, not among the provided sources).  A mapping from
entity kind to the list of changed `(entityId, sourceId)` pairs; note-revision
entries additionally carry the revised note's id. -/
structure LoadResults where
  notes : List (String × String) := []
  branches : List (String × String) := []
  attributes : List (String × String) := []
  noteReorderings : List (String × String) := []
  noteContents : List (String × String) := []
  noteRevisions : List (String × String × String) := []
  deriving DecidableEq, Repr

/-- Modelled from the spec: record a changed note. -/
def LoadResults.addNote (lr : LoadResults) (entityId sourceId : String) : LoadResults :=
  { lr with notes := lr.notes ++ [(entityId, sourceId)] }

/-- Modelled from the spec: record a changed branch. -/
def LoadResults.addBranch (lr : LoadResults) (entityId sourceId : String) : LoadResults :=
  { lr with branches := lr.branches ++ [(entityId, sourceId)] }

/-- Modelled from the spec: record a changed attribute. -/
def LoadResults.addAttribute (lr : LoadResults) (entityId sourceId : String) : LoadResults :=
  { lr with attributes := lr.attributes ++ [(entityId, sourceId)] }

/-- Modelled from the spec: record a note reordering. -/
def LoadResults.addNoteReordering (lr : LoadResults) (entityId sourceId : String) : LoadResults :=
  { lr with noteReorderings := lr.noteReorderings ++ [(entityId, sourceId)] }

/-- Modelled from the spec: record a note content change. -/
def LoadResults.addNoteContent (lr : LoadResults) (entityId sourceId : String) : LoadResults :=
  { lr with noteContents := lr.noteContents ++ [(entityId, sourceId)] }

/-- Modelled from the spec: record a note revision notification. -/
def LoadResults.addNoteRevision (lr : LoadResults) (entityId noteId sourceId : String) : LoadResults :=
  { lr with noteRevisions := lr.noteRevisions ++ [(entityId, noteId, sourceId)] }

/-! ## processSyncRows: the incremental reconciler -/

/-- One sync feed event (`{entityName, entityId, entity|positions, sourceId}`,
plus `noteId` for note-revision events). -/
structure SyncRow where
  entityName : String
  entityId : String := ""
  sourceId : String := ""
  entity : Row := {}
  positions : List (String × Int) := []
  noteId : String := ""

/-- One event of the notes pass of `processSyncRows`: a resident note is
updated in place and recorded in the change-set; an absent note is ignored. -/
def syncNoteStep (st : Store × LoadResults) (row : SyncRow) : Store × LoadResults :=
  match st.1.notes row.entityId with
  | none => st
  | some note =>
    ({ st.1 with notes := st.1.notes.set row.entityId (note.update row.entity) },
     st.2.addNote row.entityId row.sourceId)

/-- One event of the branches pass of `processSyncRows`.  Resident branch and
deleted payload: remove the edge from both resident endpoint notes (the
branch entity itself is not touched).  Resident and not deleted: update the
entity, record the change, re-wire resident endpoints.  Absent and not
deleted: materialize only if at least one endpoint note is resident.  Absent
and deleted: no-op. -/
def syncBranchStep (st : Store × LoadResults) (row : SyncRow) : Store × LoadResults :=
  let s := st.1
  let lr := st.2
  let e := row.entity
  match s.branches row.entityId with
  | some b =>
    if e.isDeleted then
      let s :=
        match s.notes e.noteId with
        | some childNote =>
          let childNote := { childNote with
                parents := childNote.parents.filter (fun p => p ≠ e.parentNoteId)
                parentToBranch := childNote.parentToBranch.erase e.parentNoteId }
          { s with notes := s.notes.set e.noteId childNote }
        | none => s
      let s :=
        match s.notes e.parentNoteId with
        | some parentNote =>
          let parentNote := { parentNote with
                children := parentNote.children.filter (fun c => c ≠ e.noteId)
                childToBranch := parentNote.childToBranch.erase e.noteId }
          { s with notes := s.notes.set e.parentNoteId parentNote }
        | none => s
      (s, lr)
    else
      let b := b.update e
      let s := { s with branches := s.branches.set row.entityId b }
      let lr := lr.addBranch row.entityId row.sourceId
      let s :=
        match s.notes b.noteId with
        | some childNote =>
          { s with notes := s.notes.set b.noteId (childNote.addParent b.parentNoteId b.branchId) }
        | none => s
      let s :=
        match s.notes b.parentNoteId with
        | some parentNote =>
          { s with notes := s.notes.set b.parentNoteId (parentNote.addChild b.noteId b.branchId) }
        | none => s
      (s, lr)
  | none =>
    if e.isDeleted then st
    else if (s.notes e.noteId).isSome || (s.notes e.parentNoteId).isSome then
      let b := Branch.fromRow e
      let s := { s with branches := s.branches.set b.branchId b }
      let lr := lr.addBranch row.entityId row.sourceId
      let s :=
        match s.notes b.noteId with
        | some childNote =>
          { s with notes := s.notes.set b.noteId (childNote.addParent b.parentNoteId b.branchId) }
        | none => s
      let s :=
        match s.notes b.parentNoteId with
        | some parentNote =>
          { s with notes := s.notes.set b.parentNoteId (parentNote.addChild b.noteId b.branchId) }
        | none => s
      (s, lr)
    else st

/-- One event of the reordering pass: apply each position to the resident
branch it names, ignoring unknown branch ids, then record the reordering. -/
def syncReorderStep (st : Store × LoadResults) (row : SyncRow) : Store × LoadResults :=
  let s := row.positions.foldl
    (fun s p =>
      match s.branches p.1 with
      | some b => { s with branches := s.branches.set p.1 { b with notePosition := p.2 } }
      | none => s)
    st.1
  (s, st.2.addNoteReordering row.entityId row.sourceId)

/-- One event of the attributes pass of `processSyncRows`.  The target note is
looked up only for relation-typed payloads.  Resident attribute: update in
place, record the change, and on deletion filter the owner's attribute list by
the attribute id and the target's target-relation list by the attribute value,
as the source does.  Absent and not deleted: materialize if owner or target is
resident, pushing the id onto the owner's and the target's attribute lists
without duplicates.  Absent and deleted: no-op. -/
def syncAttributeStep (st : Store × LoadResults) (row : SyncRow) : Store × LoadResults :=
  let s := st.1
  let lr := st.2
  let e := row.entity
  match s.attributes row.entityId with
  | some a0 =>
    let a := a0.update e
    let s := { s with attributes := s.attributes.set row.entityId a }
    let lr := lr.addAttribute row.entityId row.sourceId
    if e.isDeleted then
      let s :=
        match s.notes e.noteId with
        | some sourceNote =>
          let sourceNote :=
            { sourceNote with
              attributes := sourceNote.attributes.filter (fun x => x ≠ a.attributeId) }
          { s with notes := s.notes.set e.noteId sourceNote }
        | none => s
      let s :=
        if e.type = "relation" then
          match s.notes e.value with
          | some targetNote =>
            let targetNote :=
              { targetNote with
                targetRelations := targetNote.targetRelations.filter (fun x => x ≠ a.value) }
            { s with notes := s.notes.set e.value targetNote }
          | none => s
        else s
      (s, lr)
    else (s, lr)
  | none =>
    if e.isDeleted then st
    else if (s.notes e.noteId).isSome || (e.type = "relation" && (s.notes e.value).isSome) then
      let a := Attribute.fromRow e
      let s := { s with attributes := s.attributes.set a.attributeId a }
      let lr := lr.addAttribute row.entityId row.sourceId
      let s :=
        match s.notes e.noteId with
        | some sourceNote =>
          if sourceNote.attributes.contains a.attributeId then s
          else
            let sourceNote :=
              { sourceNote with attributes := sourceNote.attributes ++ [a.attributeId] }
            { s with notes := s.notes.set e.noteId sourceNote }
        | none => s
      let s :=
        if e.type = "relation" then
          match s.notes e.value with
          | some targetNote =>
            if targetNote.attributes.contains a.attributeId then s
            else
              let targetNote :=
                { targetNote with attributes := targetNote.attributes ++ [a.attributeId] }
              { s with notes := s.notes.set e.value targetNote }
          | none => s
        else s
      (s, lr)
    else st

/-- One event of the note-contents pass: evict the memoized complement fetch
and record the content change. -/
def syncNoteContentStep (st : Store × LoadResults) (row : SyncRow) : Store × LoadResults :=
  ({ st.1 with noteComplementPromises := st.1.noteComplementPromises.erase row.entityId },
   st.2.addNoteContent row.entityId row.sourceId)

/-- One event of the note-revisions pass: pure notification. -/
def syncNoteRevisionStep (st : Store × LoadResults) (row : SyncRow) : Store × LoadResults :=
  (st.1, st.2.addNoteRevision row.entityId row.noteId row.sourceId)

/-- The incremental reconciler `TreeCache.processSyncRows(syncRows)`: the six
kind buckets are processed in the fixed order notes, branches, reordering,
attributes, note-contents, note-revisions, each bucket being the input filtered
to its kind in arrival order.  Returns the final store together with the
aggregated change-set emitted to observers. -/
def processSyncRows (s : Store) (syncRows : List SyncRow) : Store × LoadResults :=
  let st : Store × LoadResults := (s, {})
  let st := (syncRows.filter (fun r => r.entityName = "notes")).foldl syncNoteStep st
  let st := (syncRows.filter (fun r => r.entityName = "branches")).foldl syncBranchStep st
  let st := (syncRows.filter (fun r => r.entityName = "note_reordering")).foldl syncReorderStep st
  let st := (syncRows.filter (fun r => r.entityName = "attributes")).foldl syncAttributeStep st
  let st := (syncRows.filter (fun r => r.entityName = "note_contents")).foldl syncNoteContentStep st
  (syncRows.filter (fun r => r.entityName = "note_revisions")).foldl syncNoteRevisionStep st

/-! ## Lookups (`getBranch`, `getBranches`) -/

/-- A JavaScript value as returned by `TreeCache.getBranch`: the branch
entity, or `undefined` (the implicit return when the id is not resident,
after logging).  The `null` alternative is what the `getBranches` filter
tests against; `getBranch` itself never produces it. -/
inductive BranchVal where
  | found (b : Branch)
  | undef
  | null
  deriving DecidableEq, Repr

/-- The lookup `TreeCache.getBranch(branchId)`: the resident branch, or
`undefined` after logging the missing id. -/
def getBranch (s : Store) (branchId : String) : BranchVal :=
  match s.branches branchId with
  | some b => BranchVal.found b
  | none => BranchVal.undef

/-- The lookup `TreeCache.getBranches(branchIds)`: map each id through
`getBranch`, then keep the entries that are not strictly equal to `null`. -/
def getBranches (s : Store) (branchIds : List String) : List BranchVal :=
  (branchIds.map (getBranch s)).filter (fun b => b != BranchVal.null)

/-! ## The lazy loader (`reloadNotes`, `getNotes`)

The transport layer is an external collaborator; it is embedded as an oracle
giving the response of each endpoint, and the calls issued during one
operation are logged so that statements about which fetches happen are
expressible.  The mutual recursion between `reloadNotes` and `getNotes`
(search notes force-load their results, which may again be search notes) has
no termination guarantee in the source, so the embedding carries fuel; `none`
embeds both a thrown error and fuel exhaustion. -/

/-- Response of the batched load endpoint (`tree/load`). -/
structure FetchResp where
  notes : List Row := []
  branches : List Row := []
  attributes : List Row := []

/-- One outbound server request issued during a load. -/
inductive ServerCall where
  | treeLoad (noteIds : List String)
  | searchNote (noteId : String)
  deriving DecidableEq, Repr

/-- The transport layer: a response for every batched load, and for every
search-note execution either the result rows or a falsy result (`none`). -/
structure ServerOracle where
  treeLoad : List String → FetchResp
  searchNote : String → Option (List Row)

/-- Deduplication `Array.from(new Set(noteIds))`: keeps the first occurrence
of every id in order. -/
def dedupIds (ids : List String) : List String :=
  ids.foldl (fun acc id => if acc.contains id then acc else acc ++ [id]) []

/-- The virtual-branch synthesis loop of `reloadNotes`: one branch row per
search result, with a branch id composed from the result note id and the
search note id, the search note as parent, the prefix of the result's real
branch, and `notePosition = (index + 1) * 10`.  A `none` result embeds the
`TypeError` thrown by `this.getBranch(result.branchId).prefix` when that
branch is not resident. -/
def synthVirtualBranches (s : Store) (searchNoteId : String) : Nat → List Row → Option (List Row)
  | _, [] => some []
  | index, result :: rest =>
    match s.branches result.branchId with
    | none => none
    | some b =>
      let vb : Row :=
        { branchId := "virt" ++ result.noteId ++ "-" ++ searchNoteId
          noteId := result.noteId
          parentNoteId := searchNoteId
          prefixVal := b.prefixVal
          notePosition := (Int.ofNat index + 1) * 10 }
      (synthVirtualBranches s searchNoteId (index + 1) rest).map (fun vbs => vb :: vbs)

mutual

/-- The fetch-and-merge step `TreeCache.reloadNotes(noteIds)`: an empty id
list returns at once with no server call; otherwise the deduplicated ids are
fetched in one batch, merged through `addResp`, and every returned note of
type `search` is post-processed by `searchNoteLoop`. -/
def reloadNotes (oracle : ServerOracle) (fuel : Nat) (s : Store) (noteIds : List String) :
    Option (Store × List ServerCall) :=
  if noteIds.isEmpty then some (s, [])
  else
    match fuel with
    | 0 => none
    | fuel + 1 =>
      let ids := dedupIds noteIds
      let resp := oracle.treeLoad ids
      match addResp s resp.notes resp.branches resp.attributes with
      | none => none
      | some s => searchNoteLoop oracle fuel resp s [ServerCall.treeLoad ids] resp.notes
termination_by (fuel, 0, 0)

/-- The search-note post-processing loop of `reloadNotes`: for each returned
note of type `search`, execute the search (a falsy result is a hard failure),
force-load all result notes, keep the real branches touching the search note,
append the synthesized virtual branches, and re-merge the search note with
that branch set through `addResp`. -/
def searchNoteLoop (oracle : ServerOracle) (fuel : Nat) (resp : FetchResp) (s : Store)
    (calls : List ServerCall) : List Row → Option (Store × List ServerCall)
  | [] => some (s, calls)
  | note :: rest =>
    if note.type = "search" then
      match oracle.searchNote note.noteId with
      | none => none
      | some searchResults =>
        let calls := calls ++ [ServerCall.searchNote note.noteId]
        match getNotes oracle fuel s (searchResults.map (fun r => r.noteId)) false with
        | none => none
        | some (s, calls2, _) =>
          let calls := calls ++ calls2
          let branches := resp.branches.filter
            (fun b => b.noteId == note.noteId || b.parentNoteId == note.noteId)
          match synthVirtualBranches s note.noteId 0 searchResults with
          | none => none
          | some vbs =>
            match addResp s [note] (branches ++ vbs) [] with
            | none => none
            | some s => searchNoteLoop oracle fuel resp s calls rest
    else searchNoteLoop oracle fuel resp s calls rest
termination_by rows => (fuel, 2, rows.length)

/-- The lazy lookup `TreeCache.getNotes(noteIds, silentNotFoundError)`: reload
the subset of ids not currently resident, then map the requested ids to
resident notes, logging and dropping any id still missing (a missing id
contributes `null` or `undefined`, both removed by the final truthiness
filter). -/
def getNotes (oracle : ServerOracle) (fuel : Nat) (s : Store) (noteIds : List String)
    (_silentNotFoundError : Bool) : Option (Store × List ServerCall × List NoteShort) :=
  let missingNoteIds := noteIds.filter (fun noteId => (s.notes noteId).isNone)
  match reloadNotes oracle fuel s missingNoteIds with
  | none => none
  | some (s, calls) => some (s, calls, noteIds.filterMap (fun noteId => s.notes noteId))
termination_by (fuel, 1, 0)

end

/-! ## Concrete instances used by witnesses and counterexamples -/

/-- A transport layer that returns empty responses and failing searches. -/
def trivialOracle : ServerOracle :=
  { treeLoad := fun _ => {}
    searchNote := fun _ => none }

/-- A note row with the given id. -/
def noteRowOf (noteId : String) : Row := { noteId := noteId }

/-- A branch row for the given edge. -/
def branchRowOf (branchId noteId parentNoteId : String) : Row :=
  { branchId := branchId, noteId := noteId, parentNoteId := parentNoteId }

/-- Store with child note n1 under parent note p1 through branch b1, built by
merging the corresponding rows into the empty store. -/
def c1S0 : Store :=
  (addResp Store.empty [noteRowOf "n1", noteRowOf "p1"] [branchRowOf "b1" "n1" "p1"] []).getD
    Store.empty

/-- A sync event deleting branch b1. -/
def c1Row : SyncRow :=
  { entityName := "branches"
    entityId := "b1"
    sourceId := "src"
    entity := { branchId := "b1", noteId := "n1", parentNoteId := "p1", isDeleted := true } }

/-- Store with two resident notes n1 and n2 and no edges. -/
def c2S0 : Store :=
  (addResp Store.empty [noteRowOf "n1", noteRowOf "n2"] [] []).getD Store.empty

/-- A relation attribute row owned by n1 and targeting n2. -/
def c2AttrRow : Row :=
  { attributeId := "a1", noteId := "n1", type := "relation", name := "rel", value := "n2" }

/-- A sync event creating the relation attribute a1. -/
def c2SyncCreate : SyncRow :=
  { entityName := "attributes", entityId := "a1", sourceId := "src", entity := c2AttrRow }

/-- Store where the relation attribute a1 is resident and correctly indexed on
the target note n2's target-relation list, as the specification intends. -/
def c2S1 : Store :=
  { notes :=
      ((StrMap.empty.set "n1" (NoteShort.fromRow (noteRowOf "n1"))).set "n2"
        { NoteShort.fromRow (noteRowOf "n2") with targetRelations := ["a1"] })
    branches := StrMap.empty
    attributes := StrMap.empty.set "a1" (Attribute.fromRow c2AttrRow)
    noteComplementPromises := StrMap.empty }

/-- A sync event deleting the relation attribute a1. -/
def c2SyncDelete : SyncRow :=
  { entityName := "attributes"
    entityId := "a1"
    sourceId := "src"
    entity := { c2AttrRow with isDeleted := true } }

/-- An attribute row whose owner note is nowhere resident. -/
def c3AttrRow : Row := { attributeId := "a1", noteId := "n1", name := "lbl", value := "v" }

/-- Store where the two real branches rb1 and rb2 of two search results are
resident. -/
def c8S0 : Store :=
  { Store.empty with
    branches :=
      (StrMap.empty.set "rb1" ⟨"rb1", "r1", "q", "pfx1", 5⟩).set "rb2"
        ⟨"rb2", "r2", "q", "pfx2", 7⟩ }

/-- Two search-result rows, each naming its result note and real branch. -/
def c8Results : List Row :=
  [{ noteId := "r1", branchId := "rb1" }, { noteId := "r2", branchId := "rb2" }]

/-- A sync event updating note n1. -/
def c4N : SyncRow :=
  { entityName := "notes", entityId := "n1", sourceId := "src",
    entity := { noteId := "n1", title := "T" } }

/-- A sync event creating a branch whose child is n1 and whose parent is n2. -/
def c4B : SyncRow :=
  { entityName := "branches", entityId := "bX", sourceId := "src",
    entity := { branchId := "bX", noteId := "n1", parentNoteId := "n2" } }

/-- The virtual branches expected for `c8Results` under search note sn. -/
def c8Vbs : List Row :=
  [{ branchId := "virtr1-sn", noteId := "r1", parentNoteId := "sn",
     prefixVal := "pfx1", notePosition := 10 },
   { branchId := "virtr2-sn", noteId := "r2", parentNoteId := "sn",
     prefixVal := "pfx2", notePosition := 20 }]

/-! ## Definitions for the idempotence analysis

The idempotence claim compares two stores up to graph isomorphism on
identified vertices: equal note/branch/attribute key sets and entity fields,
equal branch maps and mappings, with the parents/children adjacency lists and
the attribute index lists compared as sets of members (the source appends and
filters these lists, so replay can permute them without changing the graph).
The per-note effect of the branch and attribute passes of `addResp` is
captured by the fold functions below. -/

/-- Effect of one branch row on the note at key k during the branch loop of
`addResp`: the child side is wired first, then the parent side, both applying
to the same note when the row's endpoints coincide. -/
def wireStep (k : String) (n : NoteShort) (row : Row) : NoteShort :=
  let n := if row.noteId = k then n.addParent row.parentNoteId row.branchId else n
  if row.parentNoteId = k then n.addChild row.noteId row.branchId else n

/-- Effect of the whole branch loop of `addResp` on the note at key k. -/
def wireNote (k : String) (n : NoteShort) (rows : List Row) : NoteShort :=
  rows.foldl (wireStep k) n

/-- Effect of one attribute row on the note at key k during the attribute
loop of `addResp`, given the residency predicate K of the store: the id is
appended to the owner's attribute list unless present, and for a relation row
with resident target it is appended to the owner's target-relation list
unless present (the owner, as in the source). -/
def attrWireStep (K : String → Bool) (k : String) (n : NoteShort) (a : Row) : NoteShort :=
  if a.noteId = k then
    let n :=
      if n.attributes.contains a.attributeId then n
      else { n with attributes := n.attributes ++ [a.attributeId] }
    if a.type = "relation" then
      if K a.value then
        if n.targetRelations.contains a.attributeId then n
        else { n with targetRelations := n.targetRelations ++ [a.attributeId] }
      else n
    else n
  else n

/-- Effect of the whole attribute loop of `addResp` on the note at key k. -/
def attrWireNote (K : String → Bool) (k : String) (n : NoteShort) (rows : List Row) : NoteShort :=
  rows.foldl (attrWireStep K k) n

/-- The last element of a list satisfying a predicate, if any (the source
loops assign repeatedly, so the last occurrence wins). -/
def lastWhere {α : Type} (P : α → Prop) [DecidablePred P] (l : List α) : Option α :=
  l.foldl (fun acc x => if P x then some x else acc) none

/-- The last note row of a batch carrying the given note id, if any. -/
def lastNoteRowFor (rows : List Row) (r : String) : Option Row :=
  lastWhere (fun row => row.noteId = r) rows

/-- The last branch row of a batch carrying the given branch id, if any. -/
def lastBranchRowFor (rows : List Row) (bid : String) : Option Row :=
  lastWhere (fun row => row.branchId = bid) rows

/-- The last attribute row of a batch carrying the given attribute id. -/
def lastAttrRowFor (rows : List Row) (aid : String) : Option Row :=
  lastWhere (fun row => row.attributeId = aid) rows

/-- The last branch row of a batch joining child c to parent p, if any. -/
def lastEdgeRowFor (rows : List Row) (c p : String) : Option Row :=
  lastWhere (fun row => row.noteId = c ∧ row.parentNoteId = p) rows

/-- A batch branch row joining child c to parent p exists. -/
def hasEdgeRow (rows : List Row) (c p : String) : Prop :=
  ∃ row ∈ rows, row.noteId = c ∧ row.parentNoteId = p

/-- Two cached notes describe the same graph vertex: equal fields and
mappings, with the adjacency and index lists equal as sets of members. -/
def NoteEquiv (n1 n2 : NoteShort) : Prop :=
  n1.noteId = n2.noteId ∧ n1.type = n2.type ∧ n1.title = n2.title ∧
  (∀ p, p ∈ n1.parents ↔ p ∈ n2.parents) ∧
  (∀ c, c ∈ n1.children ↔ c ∈ n2.children) ∧
  n1.parentToBranch = n2.parentToBranch ∧
  n1.childToBranch = n2.childToBranch ∧
  (∀ a, a ∈ n1.attributes ↔ a ∈ n2.attributes) ∧
  (∀ a, a ∈ n1.targetRelations ↔ a ∈ n2.targetRelations)

/-- Two stores describe the same graph: pointwise equivalent notes and equal
branch, attribute and payload-cache maps. -/
def StoreEquiv (s1 s2 : Store) : Prop :=
  (∀ k, (s1.notes k = none ∧ s2.notes k = none) ∨
    ∃ n1 n2, s1.notes k = some n1 ∧ s2.notes k = some n2 ∧ NoteEquiv n1 n2) ∧
  s1.branches = s2.branches ∧
  s1.attributes = s2.attributes ∧
  s1.noteComplementPromises = s2.noteComplementPromises

/-! ### Invariants and concrete batches for the idempotence analysis -/

/-- A batch branch row carrying the given branch id exists. -/
def isBatchBranchId (rows : List Row) (bid : String) : Prop :=
  ∃ row ∈ rows, row.branchId = bid

/-- How far the second note pass can have moved a not-yet-re-sent note vk
away from its start-of-pass value nk: equal fields, adjacency shrunk only by
batch-edge endpoints, mappings erased only at batch-edge keys. -/
def BoundNote (B : List Row) (k : String) (nk vk : NoteShort) : Prop :=
  vk.noteId = nk.noteId ∧ vk.type = nk.type ∧ vk.title = nk.title ∧
  (∀ p, p ∈ vk.parents → p ∈ nk.parents) ∧
  (∀ p, p ∈ nk.parents → p ∈ vk.parents ∨ hasEdgeRow B k p) ∧
  (∀ c, c ∈ vk.children → c ∈ nk.children) ∧
  (∀ c, c ∈ nk.children → c ∈ vk.children ∨ hasEdgeRow B c k) ∧
  (∀ q, vk.parentToBranch q = nk.parentToBranch q ∨
    (vk.parentToBranch q = none ∧ hasEdgeRow B k q)) ∧
  (∀ q, vk.childToBranch q = nk.childToBranch q ∨
    (vk.childToBranch q = none ∧ hasEdgeRow B q k)) ∧
  vk.attributes = nk.attributes ∧ vk.targetRelations = nk.targetRelations

/-- Coherence of the start-of-second-pass store: every re-sent note's
adjacency is batch-determined, and mappings at batch-edge keys carry batch
branch ids. -/
def DetachCoh (N B : List Row) (s1 : Store) : Prop :=
  (∀ r, (∃ row ∈ N, row.noteId = r) → ∃ nr, s1.notes r = some nr ∧
      (∀ c, c ∈ nr.children → hasEdgeRow B c r) ∧
      (∀ p, p ∈ nr.parents → hasEdgeRow B r p)) ∧
  (∀ k nk p bid, s1.notes k = some nk → hasEdgeRow B k p →
      nk.parentToBranch p = some bid → isBatchBranchId B bid) ∧
  (∀ k nk c bid, s1.notes k = some nk → hasEdgeRow B c k →
      nk.childToBranch c = some bid → isBatchBranchId B bid)

/-- Invariant of the second note pass after processing the prefix P. -/
def DetachInv (B : List Row) (s1 : Store) (P : List Row) (V : Store) : Prop :=
  (∀ k, (V.notes k).isSome = (s1.notes k).isSome) ∧
  (∀ r row, lastNoteRowFor P r = some row → V.notes r = some (NoteShort.fromRow row)) ∧
  (∀ k nk vk, lastNoteRowFor P k = none → s1.notes k = some nk → V.notes k = some vk →
      BoundNote B k nk vk) ∧
  (∀ bid, ¬isBatchBranchId B bid → V.branches bid = s1.branches bid) ∧
  V.attributes = s1.attributes ∧
  V.noteComplementPromises = s1.noteComplementPromises

/-- Note rows for the replay witness batch: a child and its parent. -/
def c5N : List Row := [noteRowOf "n1", noteRowOf "p1"]

/-- Branch rows for the replay witness batch: one edge n1 → p1. -/
def c5B : List Row := [branchRowOf "b1" "n1" "p1"]

/-- Attribute rows for the replay witness batch: one relation on n1
targeting p1. -/
def c5A : List Row :=
  [{ attributeId := "a1", noteId := "n1", type := "relation", value := "p1" }]

/-- The store after the first merge of the witness batch. -/
def c5S1 : Store := (addResp Store.empty c5N c5B c5A).getD Store.empty

/-! ## General lemmas -/

theorem NoteShort.mem_addParent (n : NoteShort) (p bid : String) :
    p ∈ (n.addParent p bid).parents := by
  by_cases h : p ∈ n.parents <;> simp [NoteShort.addParent, h]

theorem NoteShort.addChild_parents (n : NoteShort) (c bid : String) :
    (n.addChild c bid).parents = n.parents := rfl

/-! ## Claim C3 -/

/-- Claim C3, counterexample: merging a single attribute row whose owner note
n1 is not resident does not silently skip the row; the merge fails (the
source throws a `TypeError` dereferencing the missing note). -/
theorem c3_counterexample : addResp Store.empty [] [] [c3AttrRow] = none := rfl

/-- Claim C3, amended: `addResp` raises for an attribute row whose owner note
is not resident in the store; the owner-note indexing step dereferences the
missing note, so the error branch is reachable and the row is not tolerated. -/
theorem c3_addResp_raises_on_missing_owner (s : Store) (row : Row)
    (h : s.notes row.noteId = none) : addResp s [] [] [row] = none := by
  simp [addResp, addAttributeRow, h]

/-- Claim C3, witness for the amended theorem at a concrete input. -/
theorem c3_witness :
    Store.empty.notes "n1" = none ∧ addResp Store.empty [] [] [c3AttrRow] = none :=
  ⟨rfl, c3_addResp_raises_on_missing_owner Store.empty c3AttrRow rfl⟩

/-! ## Claim C7 -/

theorem processSyncRows_single_branch (s : Store) (row : SyncRow)
    (h : row.entityName = "branches") :
    processSyncRows s [row] = syncBranchStep (s, {}) row := by
  simp [processSyncRows, h]

/-- Claim C7: a branch sync event that is not a deletion, whose branch id is
not resident and neither of whose endpoint notes is resident, leaves the
store unchanged: no branch entity is added, no note is created, and no
adjacency is modified. -/
theorem c7_unresident_branch_event_is_noop (s : Store) (row : SyncRow)
    (hname : row.entityName = "branches")
    (hdel : row.entity.isDeleted = false)
    (hbr : s.branches row.entityId = none)
    (hchild : s.notes row.entity.noteId = none)
    (hparent : s.notes row.entity.parentNoteId = none) :
    (processSyncRows s [row]).1 = s := by
  rw [processSyncRows_single_branch s row hname]
  simp [syncBranchStep, hdel, hbr, hchild, hparent]

/-- Claim C7, witness at a concrete input. -/
theorem c7_witness :
    (Store.empty.branches "b9" = none ∧
      Store.empty.notes "x" = none ∧ Store.empty.notes "y" = none) ∧
    (processSyncRows Store.empty
        [{ entityName := "branches", entityId := "b9",
           entity := { branchId := "b9", noteId := "x", parentNoteId := "y" } }]).1 =
      Store.empty :=
  ⟨⟨rfl, rfl, rfl⟩,
    c7_unresident_branch_event_is_noop Store.empty
      { entityName := "branches", entityId := "b9",
        entity := { branchId := "b9", noteId := "x", parentNoteId := "y" } }
      rfl rfl rfl rfl rfl⟩

/-! ## Claim C1 -/

/-- Claim C1, counterexample: after a sync deletion of the resident branch b1
(joining the two resident notes n1 and p1), the branch id b1 is still
resident in the branch store, contradicting the claimed removal of the
branch entity. -/
theorem c1_counterexample :
    (((processSyncRows c1S0 [c1Row]).1).branches "b1").isSome = true := rfl

/-- Claim C1, amended: for a branch sync event whose branch entity is
resident and whose payload has `isDeleted = true` (with distinct endpoints),
the reconciler detaches the edge from both resident endpoint notes — the
child's parents list and parentToBranch mapping, the parent's children list
and childToBranch mapping — but it does not remove the branch entity itself:
the whole branch store is left unchanged, so the branch id stays resident. -/
theorem c1_branch_delete_detaches_but_keeps_entity (s : Store) (row : SyncRow) (b : Branch)
    (hname : row.entityName = "branches")
    (hdel : row.entity.isDeleted = true)
    (hbr : s.branches row.entityId = some b)
    (hne : row.entity.noteId ≠ row.entity.parentNoteId) :
    ((processSyncRows s [row]).1).branches = s.branches ∧
    (∀ cn, s.notes row.entity.noteId = some cn →
      ((processSyncRows s [row]).1).notes row.entity.noteId =
        some { cn with
               parents := cn.parents.filter (fun p => p ≠ row.entity.parentNoteId)
               parentToBranch := cn.parentToBranch.erase row.entity.parentNoteId }) ∧
    (∀ pn, s.notes row.entity.parentNoteId = some pn →
      ((processSyncRows s [row]).1).notes row.entity.parentNoteId =
        some { pn with
               children := pn.children.filter (fun c => c ≠ row.entity.noteId)
               childToBranch := pn.childToBranch.erase row.entity.noteId }) := by
  have hne' : row.entity.parentNoteId ≠ row.entity.noteId := fun h => hne h.symm
  rw [processSyncRows_single_branch s row hname]
  unfold syncBranchStep
  simp only [hbr, hdel, if_true]
  refine ⟨?_, ?_, ?_⟩
  · cases hcn : s.notes row.entity.noteId <;>
      cases hpn : s.notes row.entity.parentNoteId <;>
        simp [StrMap.set, hcn, hpn, hne, hne']
  · intro cn hcn
    cases hpn : s.notes row.entity.parentNoteId <;>
      simp [StrMap.set, hcn, hpn, hne, hne']
  · intro pn hpn
    cases hcn : s.notes row.entity.noteId <;>
      simp [StrMap.set, hcn, hpn, hne, hne']

/-- Claim C1, witness for the amended theorem at a concrete input. -/
theorem c1_witness :
    c1S0.branches "b1" = some ⟨"b1", "n1", "p1", "", 0⟩ ∧
    ((processSyncRows c1S0 [c1Row]).1).branches = c1S0.branches :=
  ⟨rfl,
    (c1_branch_delete_detaches_but_keeps_entity c1S0 c1Row ⟨"b1", "n1", "p1", "", 0⟩
      rfl rfl rfl (by decide)).1⟩

/-! ## Claim C2 -/

/-- Claim C2, evaluation at the failing input: for the relation attribute a1
owned by n1 and targeting n2, with both notes resident, (1) `addResp` appends
the attribute id to the OWNER n1's target-relation list and leaves the target
n2's target-relation list empty; (2) the sync create path appends the
attribute id to the target's plain attribute list, not its target-relation
list; (3) the sync delete path filters the target's target-relation list by
the attribute VALUE, so the attribute id "a1" survives the deletion. -/
theorem c2_relation_indexing_slips :
    ((addResp c2S0 [] [] [c2AttrRow]).map
        (fun s => ((s.notes "n1").map NoteShort.targetRelations,
                   (s.notes "n2").map NoteShort.targetRelations))) =
      some (some ["a1"], some []) ∧
    (((processSyncRows c2S0 [c2SyncCreate]).1).notes "n2").map
        (fun n => (n.attributes, n.targetRelations)) = some (["a1"], []) ∧
    (((processSyncRows c2S1 [c2SyncDelete]).1).notes "n2").map
        NoteShort.targetRelations = some ["a1"] :=
  ⟨rfl, rfl, rfl⟩

/-! ## Claim C6 -/

/-- Claim C6, counterexample: looking up a single branch id with no resident
branch yields a one-element list containing the `undefined` entry, not the
empty list — the id is neither dropped nor resolved, because the filter only
removes entries strictly equal to `null` while `getBranch` returns
`undefined` for a missing id. -/
theorem c6_counterexample : getBranches Store.empty ["missing"] = [BranchVal.undef] := rfl

/-- Claim C6, amended: `getBranches` returns one entry per requested id —
the filter against `null` removes nothing since `getBranch` returns either
the branch entity or `undefined`, so ids with no resident branch are logged
but stay in the result as `undefined` entries; `getNotes` does drop the ids
still missing after the fetch, returning exactly the requested ids mapped to
resident notes. -/
theorem c6_lookup_filtering (s : Store) (ids : List String)
    (oracle : ServerOracle) (fuel : Nat) (qids : List String) (silent : Bool)
    (s' : Store) (calls : List ServerCall) (res : List NoteShort)
    (h : getNotes oracle fuel s qids silent = some (s', calls, res)) :
    getBranches s ids = ids.map (getBranch s) ∧
    res = qids.filterMap (fun noteId => s'.notes noteId) := by
  constructor
  · unfold getBranches
    rw [List.filter_eq_self]
    intro b hb
    simp only [List.mem_map] at hb
    obtain ⟨id, _, rfl⟩ := hb
    unfold getBranch
    cases s.branches id <;> simp
  · simp only [getNotes] at h
    cases hre : reloadNotes oracle fuel s (qids.filter fun noteId => (s.notes noteId).isNone) with
    | none => rw [hre] at h; exact absurd h (by simp)
    | some pr =>
      obtain ⟨s1, calls1⟩ := pr
      rw [hre] at h
      simp only [Option.some.injEq, Prod.mk.injEq] at h
      obtain ⟨h1, _, h3⟩ := h
      rw [← h3, h1]

/-- Claim C6, witness for the amended theorem at a concrete input. -/
theorem c6_witness :
    getNotes trivialOracle 0 c1S0 [] false = some (c1S0, [], []) ∧
    getBranches c1S0 ["b1", "zz"] = ["b1", "zz"].map (getBranch c1S0) := by
  have h : getNotes trivialOracle 0 c1S0 [] false = some (c1S0, [], []) := by
    simp [getNotes, reloadNotes]
  exact ⟨h, (c6_lookup_filtering c1S0 ["b1", "zz"] trivialOracle 0 [] false c1S0 [] [] h).1⟩

/-! ## Claim C10 -/

/-- Claim C10: when every requested id is already resident, the missing
subset is empty, so `reloadNotes` returns early with no server call and
`getNotes` returns the unchanged store, an empty call log and the resident
notes for the requested ids. -/
theorem c10_all_resident_no_fetch (oracle : ServerOracle) (fuel : Nat) (s : Store)
    (noteIds : List String) (silent : Bool)
    (h : ∀ id ∈ noteIds, (s.notes id).isSome) :
    getNotes oracle fuel s noteIds silent =
      some (s, [], noteIds.filterMap (fun noteId => s.notes noteId)) := by
  have hmiss : noteIds.filter (fun noteId => (s.notes noteId).isNone) = [] := by
    rw [List.filter_eq_nil_iff]
    intro a ha
    simp only [Option.isNone_iff_eq_none]
    exact Option.isSome_iff_ne_none.mp (h a ha)
  simp only [getNotes, hmiss]
  have hre : reloadNotes oracle fuel s [] = some (s, []) := by
    unfold reloadNotes
    simp
  rw [hre]

/-- Claim C10, witness at a concrete input: both requested notes are resident
in `c1S0`, so the lookup issues no fetch and leaves the store unchanged. -/
theorem c10_witness :
    (∀ id ∈ ["n1", "p1"], ((c1S0.notes id).isSome : Prop)) ∧
    getNotes trivialOracle 0 c1S0 ["n1", "p1"] false =
      some (c1S0, [], ["n1", "p1"].filterMap (fun noteId => c1S0.notes noteId)) :=
  ⟨by decide,
    c10_all_resident_no_fetch trivialOracle 0 c1S0 ["n1", "p1"] false (by decide)⟩

/-! ## Claim C8 -/

theorem synthVirtualBranches_spec (s : Store) (searchNoteId : String) :
    ∀ (n : Nat) (results vbs : List Row),
      synthVirtualBranches s searchNoteId n results = some vbs →
      vbs.map Row.branchId =
        results.map (fun r => "virt" ++ r.noteId ++ "-" ++ searchNoteId) ∧
      ∀ i (hi : i < vbs.length),
        (vbs.get ⟨i, hi⟩).notePosition = (Int.ofNat (n + i) + 1) * 10 := by
  intro n results
  induction results generalizing n with
  | nil =>
    intro vbs h
    simp only [synthVirtualBranches, Option.some.injEq] at h
    subst h
    simp
  | cons r rest ih =>
    intro vbs h
    unfold synthVirtualBranches at h
    cases hb : s.branches r.branchId with
    | none => rw [hb] at h; exact absurd h (by simp)
    | some b =>
      rw [hb] at h
      cases hrec : synthVirtualBranches s searchNoteId (n + 1) rest with
      | none => rw [hrec] at h; exact absurd h (by simp)
      | some vbs' =>
        rw [hrec] at h
        simp only [Option.map_some', Option.some.injEq] at h
        subst h
        obtain ⟨ih1, ih2⟩ := ih (n + 1) vbs' hrec
        constructor
        · simpa using ih1
        · intro i hi
          cases i with
          | zero => simp
          | succ j =>
            have hj : j < vbs'.length := by simpa using hi
            have := ih2 j hj
            simp only [List.get] at this ⊢
            rw [this, show n + 1 + j = n + (j + 1) from by omega]

/-- Claim C8: the virtual-branch synthesis of `reloadNotes` yields, for the
i-th search result, a branch id equal to the concatenation of "virt", the
result note id, "-", and the search note id (a pure function of that pair),
and `notePosition = (i + 1) * 10`; consequently two syntheses for the same
search note and the same result list, from any two store states, produce
identical branch id lists, so repeated reloads do not accumulate duplicate
edges. -/
theorem c8_virtual_branch_synthesis_deterministic (s : Store) (searchNoteId : String)
    (results vbs : List Row)
    (h : synthVirtualBranches s searchNoteId 0 results = some vbs) :
    vbs.map Row.branchId = results.map (fun r => "virt" ++ r.noteId ++ "-" ++ searchNoteId) ∧
    (∀ i (hi : i < vbs.length), (vbs.get ⟨i, hi⟩).notePosition = (Int.ofNat i + 1) * 10) ∧
    (∀ (s2 : Store) (vbs2 : List Row),
      synthVirtualBranches s2 searchNoteId 0 results = some vbs2 →
      vbs2.map Row.branchId = vbs.map Row.branchId) := by
  obtain ⟨h1, h2⟩ := synthVirtualBranches_spec s searchNoteId 0 results vbs h
  refine ⟨h1, fun i hi => by simpa using h2 i hi, fun s2 vbs2 h2' => ?_⟩
  rw [(synthVirtualBranches_spec s2 searchNoteId 0 results vbs2 h2').1, h1]

/-- Claim C8, witness at a concrete input with two search results. -/
theorem c8_witness :
    synthVirtualBranches c8S0 "sn" 0 c8Results = some c8Vbs ∧
    c8Vbs.map Row.branchId = c8Results.map (fun r => "virt" ++ r.noteId ++ "-" ++ "sn") :=
  ⟨by decide,
    (c8_virtual_branch_synthesis_deterministic c8S0 "sn" c8Results c8Vbs (by decide)).1⟩

/-! ## Claim C9 -/

theorem foldl_lr_branches_eq {α : Type} (step : Store × LoadResults → α → Store × LoadResults)
    (l : List α) (st : Store × LoadResults)
    (h : ∀ st' r, r ∈ l → ((step st' r).2).branches = (st'.2).branches) :
    ((l.foldl step st).2).branches = (st.2).branches := by
  induction l generalizing st with
  | nil => rfl
  | cons r rest ih =>
    rw [List.foldl_cons, ih _ (fun st' r' hr' => h st' r' (List.mem_cons_of_mem _ hr'))]
    exact h st r (List.mem_cons_self r rest)

theorem syncNoteStep_lr_branches (st : Store × LoadResults) (r : SyncRow) :
    ((syncNoteStep st r).2).branches = (st.2).branches := by
  unfold syncNoteStep
  cases st.1.notes r.entityId <;> simp [LoadResults.addNote]

theorem syncBranchStep_lr_of_deleted (st : Store × LoadResults) (r : SyncRow)
    (h : r.entity.isDeleted = true) : (syncBranchStep st r).2 = st.2 := by
  unfold syncBranchStep
  dsimp only
  split <;> simp [h]

theorem syncReorderStep_lr_branches (st : Store × LoadResults) (r : SyncRow) :
    ((syncReorderStep st r).2).branches = (st.2).branches := by
  simp [syncReorderStep, LoadResults.addNoteReordering]

theorem syncAttributeStep_lr_branches (st : Store × LoadResults) (r : SyncRow) :
    ((syncAttributeStep st r).2).branches = (st.2).branches := by
  unfold syncAttributeStep
  dsimp only
  repeat' split
  all_goals simp [LoadResults.addAttribute]

theorem syncNoteContentStep_lr_branches (st : Store × LoadResults) (r : SyncRow) :
    ((syncNoteContentStep st r).2).branches = (st.2).branches := by
  simp [syncNoteContentStep, LoadResults.addNoteContent]

theorem syncNoteRevisionStep_lr_branches (st : Store × LoadResults) (r : SyncRow) :
    ((syncNoteRevisionStep st r).2).branches = (st.2).branches := by
  simp [syncNoteRevisionStep, LoadResults.addNoteRevision]

/-- Claim C9: branch sync events whose payload has `isDeleted = true` never
contribute an entry to the emitted change-set's branch list — for a batch in
which every branch-kind event is a deletion, the branch list of the emitted
change-set is empty, even though such events may detach adjacency. -/
theorem c9_deleted_branch_events_emit_no_branch_entries (s : Store) (rows : List SyncRow)
    (h : ∀ r ∈ rows, r.entityName = "branches" → r.entity.isDeleted = true) :
    ((processSyncRows s rows).2).branches = [] := by
  unfold processSyncRows
  rw [foldl_lr_branches_eq _ _ _ (fun st' r _ => syncNoteRevisionStep_lr_branches st' r),
    foldl_lr_branches_eq _ _ _ (fun st' r _ => syncNoteContentStep_lr_branches st' r),
    foldl_lr_branches_eq _ _ _ (fun st' r _ => syncAttributeStep_lr_branches st' r),
    foldl_lr_branches_eq _ _ _ (fun st' r _ => syncReorderStep_lr_branches st' r),
    foldl_lr_branches_eq _ _ _ ?_,
    foldl_lr_branches_eq _ _ _ (fun st' r _ => syncNoteStep_lr_branches st' r)]
  intro st' r hr
  have hmem := List.mem_filter.mp hr
  have hdel := h r hmem.1 (of_decide_eq_true hmem.2)
  rw [syncBranchStep_lr_of_deleted st' r hdel]

/-- Claim C9, witness at a concrete input: the deletion of branch b1 detaches
adjacency in `c1S0` yet the emitted change-set has no branch entries. -/
theorem c9_witness :
    (∀ r ∈ [c1Row], r.entityName = "branches" → r.entity.isDeleted = true) ∧
    ((processSyncRows c1S0 [c1Row]).2).branches = [] :=
  ⟨by decide, c9_deleted_branch_events_emit_no_branch_entries c1S0 [c1Row] (by decide)⟩

/-! ## Claim C4 -/

theorem syncBranchStep_wires_child (st : Store × LoadResults) (row : SyncRow)
    (hdel : row.entity.isDeleted = false)
    (hres : (st.1.notes row.entity.noteId).isSome = true) :
    ∃ n, ((syncBranchStep st row).1).notes row.entity.noteId = some n ∧
      row.entity.parentNoteId ∈ n.parents := by
  obtain ⟨cn, hcn⟩ := Option.isSome_iff_exists.mp hres
  unfold syncBranchStep
  dsimp only
  split <;>
    simp only [hdel, Bool.false_eq_true, if_false, hcn, Option.isSome_some, Bool.true_or,
      if_true, Branch.update, Branch.fromRow]
  all_goals (
    by_cases hpq : row.entity.parentNoteId = row.entity.noteId
    · rw [hpq, StrMap.set_eq]
      dsimp only
      refine ⟨_, StrMap.set_eq _ _ _, ?_⟩
      rw [NoteShort.addChild_parents]
      exact NoteShort.mem_addParent cn _ _
    · rw [StrMap.set_ne _ _ _ _ hpq]
      cases hpn : st.1.notes row.entity.parentNoteId with
      | some pn =>
        dsimp only
        refine ⟨cn.addParent row.entity.parentNoteId row.entity.branchId, ?_,
          NoteShort.mem_addParent cn _ _⟩
        rw [StrMap.set_ne _ _ _ _ (fun hh => hpq hh.symm)]
        exact StrMap.set_eq _ _ _
      | none =>
        dsimp only
        exact ⟨_, StrMap.set_eq _ _ _, NoteShort.mem_addParent cn _ _⟩)

/-- Claim C4: for a batch holding a note event for id X and a non-deleted
branch event whose child is X (X resident), the fixed kind order — notes
before branches — makes both input orders collapse to the same computation,
so the two orders produce the same final store and change-set, and in the
final store X's adjacency is wired: X's parents list contains the branch's
parent note id. -/
theorem c4_fixed_kind_order_overrides_arrival_order (s : Store) (nRow bRow : SyncRow)
    (hn : nRow.entityName = "notes")
    (hb : bRow.entityName = "branches")
    (hdel : bRow.entity.isDeleted = false)
    (hx : nRow.entityId = bRow.entity.noteId)
    (hres : (s.notes bRow.entity.noteId).isSome = true) :
    processSyncRows s [nRow, bRow] = processSyncRows s [bRow, nRow] ∧
    ∃ n, ((processSyncRows s [nRow, bRow]).1).notes bRow.entity.noteId = some n ∧
      bRow.entity.parentNoteId ∈ n.parents := by
  have h1 : processSyncRows s [nRow, bRow] = syncBranchStep (syncNoteStep (s, {}) nRow) bRow := by
    simp [processSyncRows, hn, hb]
  have h2 : processSyncRows s [bRow, nRow] = syncBranchStep (syncNoteStep (s, {}) nRow) bRow := by
    simp [processSyncRows, hn, hb]
  have hres2 : ((syncNoteStep (s, ({} : LoadResults)) nRow).1.notes bRow.entity.noteId).isSome
      = true := by
    obtain ⟨cn, hcn⟩ := Option.isSome_iff_exists.mp hres
    unfold syncNoteStep
    dsimp only
    rw [hx, hcn]
    dsimp only
    rw [StrMap.set_eq]
    rfl
  refine ⟨h1.trans h2.symm, ?_⟩
  rw [h1]
  exact syncBranchStep_wires_child _ bRow hdel hres2

/-- Claim C4, witness at a concrete input: note update for n1 and branch
creation of n1 under n2, in both orders, on a store where n1 and n2 are
resident. -/
theorem c4_witness :
    processSyncRows c2S0 [c4N, c4B] = processSyncRows c2S0 [c4B, c4N] ∧
    ∃ n, ((processSyncRows c2S0 [c4N, c4B]).1).notes "n1" = some n ∧ "n2" ∈ n.parents :=
  c4_fixed_kind_order_overrides_arrival_order c2S0 c4N c4B rfl rfl rfl rfl rfl


theorem StrMap.set_self {V : Type} (m : StrMap V) (k : String) (v : V) (h : m k = some v) :
    m.set k v = m := by
  funext q
  by_cases hq : q = k <;> simp [StrMap.set, hq, h.symm]

theorem StrMap.erase_of_none {V : Type} (m : StrMap V) (k : String) (h : m k = none) :
    m.erase k = m := by
  funext q
  by_cases hq : q = k <;> simp [StrMap.erase, hq, h.symm]

theorem addBranchRow_branches (s : Store) (row : Row) :
    (addBranchRow s row).branches = s.branches.set row.branchId (Branch.fromRow row) := by
  unfold addBranchRow
  dsimp only
  split <;> split <;> rfl

theorem addBranchRow_attributes (s : Store) (row : Row) :
    (addBranchRow s row).attributes = s.attributes := by
  unfold addBranchRow
  dsimp only
  split <;> split <;> rfl

theorem addBranchRow_compl (s : Store) (row : Row) :
    (addBranchRow s row).noteComplementPromises = s.noteComplementPromises := by
  unfold addBranchRow
  dsimp only
  split <;> split <;> rfl

theorem addBranchRow_notes (s : Store) (row : Row) (k : String) :
    (addBranchRow s row).notes k = (s.notes k).map (fun n => wireStep k n row) := by
  unfold addBranchRow wireStep
  dsimp only [Branch.fromRow]
  by_cases hc1 : row.noteId = k <;> by_cases hp1 : row.parentNoteId = k <;>
    by_cases hnp : row.noteId = row.parentNoteId <;>
      cases hc : s.notes row.noteId <;>
        cases hp : s.notes row.parentNoteId <;>
          simp_all [StrMap.set, @eq_comm String]

theorem branchP_notes (rows : List Row) (s : Store) (k : String) :
    ((rows.foldl addBranchRow s).notes k) = (s.notes k).map (fun n => wireNote k n rows) := by
  induction rows generalizing s with
  | nil => cases h : s.notes k <;> simp [wireNote, h]
  | cons row rest ih =>
    rw [List.foldl_cons, ih, addBranchRow_notes]
    cases h : s.notes k <;> simp [wireNote, h]

theorem branchP_branches (rows : List Row) (s : Store) :
    (rows.foldl addBranchRow s).branches =
      rows.foldl (fun m row => m.set row.branchId (Branch.fromRow row)) s.branches := by
  induction rows generalizing s with
  | nil => rfl
  | cons row rest ih => rw [List.foldl_cons, List.foldl_cons, ih, addBranchRow_branches]

theorem branchP_attributes (rows : List Row) (s : Store) :
    (rows.foldl addBranchRow s).attributes = s.attributes := by
  induction rows generalizing s with
  | nil => rfl
  | cons row rest ih => rw [List.foldl_cons, ih, addBranchRow_attributes]

theorem branchP_compl (rows : List Row) (s : Store) :
    (rows.foldl addBranchRow s).noteComplementPromises = s.noteComplementPromises := by
  induction rows generalizing s with
  | nil => rfl
  | cons row rest ih => rw [List.foldl_cons, ih, addBranchRow_compl]

theorem addAttributeRow_eq_none_iff (s : Store) (a : Row) :
    addAttributeRow s a = none ↔ s.notes a.noteId = none := by
  unfold addAttributeRow
  dsimp only
  cases h : s.notes a.noteId
  · simp
  · simp only [h]
    repeat' split
    all_goals simp

theorem StrMap.set_set {V : Type} (m : StrMap V) (k : String) (v1 v2 : V) :
    (m.set k v1).set k v2 = m.set k v2 := by
  funext q
  by_cases hq : q = k <;> simp [StrMap.set, hq]

theorem addAttributeRow_char (s : Store) (a : Row) (n0 : NoteShort)
    (hno : s.notes a.noteId = some n0) :
    addAttributeRow s a = some
      { s with
        attributes := s.attributes.set a.attributeId (Attribute.fromRow a)
        notes := s.notes.set a.noteId
          (attrWireStep (fun q => (s.notes q).isSome) a.noteId n0 a) } := by
  unfold addAttributeRow attrWireStep
  dsimp only
  rw [hno]
  dsimp only
  by_cases htype : a.type = "relation"
  · by_cases hveq : a.value = a.noteId
    · simp [htype, hveq, StrMap.set_eq, StrMap.set_set, hno]
    · rw [StrMap.set_ne _ _ _ _ hveq]
      cases htv : s.notes a.value with
      | some tn => simp [htype, htv, StrMap.set_set]
      | none => simp [htype, htv]
  · simp [htype]

theorem StrMap.set_isSome_of_some {V : Type} (m : StrMap V) (k : String) (v0 v : V)
    (h : m k = some v0) (q : String) : ((m.set k v) q).isSome = (m q).isSome := by
  by_cases hq : q = k <;> simp [StrMap.set, hq, h]

theorem attrP_char (A : List Row) (s : Store)
    (h : ∀ a ∈ A, (s.notes a.noteId).isSome = true) :
    A.foldlM addAttributeRow s = some
      { notes := fun k =>
          (s.notes k).map (fun n => attrWireNote (fun q => (s.notes q).isSome) k n A)
        branches := s.branches
        attributes := A.foldl (fun m a => m.set a.attributeId (Attribute.fromRow a)) s.attributes
        noteComplementPromises := s.noteComplementPromises } := by
  induction A generalizing s with
  | nil =>
    simp only [List.foldlM_nil, List.foldl_nil, attrWireNote]
    have hid : (fun k => Option.map (fun n => n) (s.notes k)) = s.notes :=
      funext fun k => by cases s.notes k <;> rfl
    rw [hid]
    rfl
  | cons a rest ih =>
    obtain ⟨n0, hno⟩ := Option.isSome_iff_exists.mp (h a (List.mem_cons_self a rest))
    rw [List.foldlM_cons, addAttributeRow_char s a n0 hno]
    simp only [Option.pure_def, Option.bind_eq_bind, Option.some_bind]
    set s' : Store := { s with notes := s.notes.set a.noteId (attrWireStep (fun q => (s.notes q).isSome) a.noteId n0 a), attributes := s.attributes.set a.attributeId (Attribute.fromRow a) } with hs'
    have hsome : ∀ q, (s'.notes q).isSome = (s.notes q).isSome := fun q =>
      StrMap.set_isSome_of_some s.notes a.noteId n0 _ hno q
    have h' : ∀ a' ∈ rest, (s'.notes a'.noteId).isSome = true := fun a' ha' =>
      (hsome a'.noteId).trans (h a' (List.mem_cons_of_mem a ha'))
    rw [ih s' h']
    simp only [Option.some.injEq, Store.mk.injEq]
    refine ⟨funext fun k => ?_, by trivial, by trivial, by trivial⟩
    have hK : (fun q => (s'.notes q).isSome) = (fun q => (s.notes q).isSome) :=
      funext hsome
    rw [hK]
    show ((s.notes.set a.noteId (attrWireStep (fun q => (s.notes q).isSome) a.noteId n0 a)) k).map _
        = _
    by_cases hk : k = a.noteId
    · subst hk
      rw [StrMap.set_eq, hno]
      simp [attrWireNote]
    · rw [StrMap.set_ne _ _ _ _ hk]
      cases hsk : s.notes k with
      | none => rfl
      | some nk =>
        simp only [Option.map_some']
        have : attrWireStep (fun q => (s.notes q).isSome) k nk a = nk := by
          unfold attrWireStep
          rw [if_neg (fun hh => hk hh.symm)]
        simp [attrWireNote, this]

theorem attrP_success_owners (A : List Row) (s t : Store)
    (h : A.foldlM addAttributeRow s = some t) :
    ∀ a ∈ A, (s.notes a.noteId).isSome = true := by
  induction A generalizing s with
  | nil => intro a ha; simp at ha
  | cons a rest ih =>
    intro a' ha'
    rw [List.foldlM_cons] at h
    cases hfirst : addAttributeRow s a with
    | none => rw [hfirst] at h; exact absurd h (by simp)
    | some s1 =>
      rw [hfirst] at h
      simp only [Option.bind_eq_bind, Option.some_bind] at h
      have howner : (s.notes a.noteId).isSome = true := by
        by_contra hc
        have hnone : s.notes a.noteId = none := by
          cases hx : s.notes a.noteId
          · rfl
          · rw [hx] at hc; simp at hc
        rw [(addAttributeRow_eq_none_iff s a).mpr hnone] at hfirst
        exact absurd hfirst (by simp)
      obtain ⟨n0, hno⟩ := Option.isSome_iff_exists.mp howner
      have hchar := addAttributeRow_char s a n0 hno
      rw [hchar] at hfirst
      injection hfirst with hs1
      rcases List.mem_cons.mp ha' with rfl | hmem
      · exact howner
      · have hrest := ih s1 h a' hmem
        have hsome : ∀ q, (s1.notes q).isSome = (s.notes q).isSome := by
          rw [← hs1]
          exact fun q => StrMap.set_isSome_of_some s.notes a.noteId n0 _ hno q
        rw [← hsome a'.noteId]
        exact hrest

theorem lastWhere_acc {α : Type} (P : α → Prop) [DecidablePred P] (l : List α) (acc : Option α) :
    l.foldl (fun acc x => if P x then some x else acc) acc = (lastWhere P l).or acc := by
  induction l generalizing acc with
  | nil => rfl
  | cons x rest ih =>
    unfold lastWhere
    rw [List.foldl_cons, List.foldl_cons, ih, ih]
    cases hrest : rest.foldl (fun acc x => if P x then some x else acc) none with
    | some r => simp [lastWhere, hrest, Option.or]
    | none =>
      simp only [lastWhere, hrest, Option.or]
      by_cases hx : P x <;> simp [hx]

theorem lastWhere_cons {α : Type} (P : α → Prop) [DecidablePred P] (x : α) (rest : List α) :
    lastWhere P (x :: rest) =
      (lastWhere P rest).or (if P x then some x else none) := by
  unfold lastWhere
  rw [List.foldl_cons, lastWhere_acc]
  rfl

theorem lastWhere_eq_none_iff {α : Type} (P : α → Prop) [DecidablePred P] (l : List α) :
    lastWhere P l = none ↔ ∀ x ∈ l, ¬P x := by
  induction l with
  | nil => simp [lastWhere]
  | cons x rest ih =>
    rw [lastWhere_cons]
    cases hrest : lastWhere P rest with
    | some r =>
      simp only [Option.or]
      constructor
      · intro h; exact absurd h (by simp)
      · intro h
        exact absurd hrest (by rw [ih.mpr (fun y hy => h y (List.mem_cons_of_mem x hy))]; simp)
    | none =>
      simp only [Option.or]
      constructor
      · intro h
        intro y hy
        rcases List.mem_cons.mp hy with rfl | hmem
        · intro hP; rw [if_pos hP] at h; exact absurd h (by simp)
        · exact ih.mp hrest y hmem
      · intro h
        rw [if_neg (h x (List.mem_cons_self x rest))]

theorem lastWhere_mem {α : Type} (P : α → Prop) [DecidablePred P] (l : List α) (r : α)
    (h : lastWhere P l = some r) : r ∈ l ∧ P r := by
  induction l with
  | nil => exact absurd h (by simp [lastWhere])
  | cons x rest ih =>
    rw [lastWhere_cons] at h
    cases hrest : lastWhere P rest with
    | some r2 =>
      rw [hrest] at h
      simp only [Option.or] at h
      injection h with h
      subst h
      obtain ⟨hm, hp⟩ := ih hrest
      exact ⟨List.mem_cons_of_mem x hm, hp⟩
    | none =>
      rw [hrest] at h
      simp only [Option.or] at h
      by_cases hx : P x
      · rw [if_pos hx] at h
        injection h with h
        subst h
        exact ⟨List.mem_cons_self x rest, hx⟩
      · rw [if_neg hx] at h
        exact absurd h (by simp)

theorem wireStep_fields (k : String) (n : NoteShort) (row : Row) :
    (wireStep k n row).noteId = n.noteId ∧ (wireStep k n row).type = n.type ∧
    (wireStep k n row).title = n.title ∧ (wireStep k n row).attributes = n.attributes ∧
    (wireStep k n row).targetRelations = n.targetRelations := by
  unfold wireStep NoteShort.addParent NoteShort.addChild
  repeat' split
  all_goals exact ⟨rfl, rfl, rfl, rfl, rfl⟩

theorem wireNote_fields (k : String) (n : NoteShort) (rows : List Row) :
    (wireNote k n rows).noteId = n.noteId ∧ (wireNote k n rows).type = n.type ∧
    (wireNote k n rows).title = n.title ∧ (wireNote k n rows).attributes = n.attributes ∧
    (wireNote k n rows).targetRelations = n.targetRelations := by
  induction rows generalizing n with
  | nil => exact ⟨rfl, rfl, rfl, rfl, rfl⟩
  | cons row rest ih =>
    unfold wireNote at *
    rw [List.foldl_cons]
    obtain ⟨h1, h2, h3, h4, h5⟩ := ih (wireStep k n row)
    obtain ⟨g1, g2, g3, g4, g5⟩ := wireStep_fields k n row
    exact ⟨h1.trans g1, h2.trans g2, h3.trans g3, h4.trans g4, h5.trans g5⟩

theorem wireStep_parents_mem (k : String) (n : NoteShort) (row : Row) (x : String) :
    x ∈ (wireStep k n row).parents ↔
      x ∈ n.parents ∨ (row.noteId = k ∧ row.parentNoteId = x) := by
  unfold wireStep NoteShort.addParent NoteShort.addChild
  by_cases hc : row.noteId = k <;> by_cases hp : row.parentNoteId = k <;>
    by_cases hmem : n.parents.contains row.parentNoteId <;>
      simp_all <;> aesop

theorem wireStep_children_mem (k : String) (n : NoteShort) (row : Row) (x : String) :
    x ∈ (wireStep k n row).children ↔
      x ∈ n.children ∨ (row.parentNoteId = k ∧ row.noteId = x) := by
  unfold wireStep NoteShort.addParent NoteShort.addChild
  by_cases hc : row.noteId = k <;> by_cases hp : row.parentNoteId = k <;>
    by_cases hmem : n.children.contains row.noteId <;>
      simp_all <;> aesop

theorem wireNote_parents_mem (k : String) (n : NoteShort) (rows : List Row) (x : String) :
    x ∈ (wireNote k n rows).parents ↔ x ∈ n.parents ∨ hasEdgeRow rows k x := by
  induction rows generalizing n with
  | nil => simp [wireNote, hasEdgeRow]
  | cons row rest ih =>
    unfold wireNote at *
    rw [List.foldl_cons, ih, wireStep_parents_mem]
    unfold hasEdgeRow
    constructor
    · rintro ((h | ⟨h1, h2⟩) | ⟨r2, hm, h1, h2⟩)
      · exact Or.inl h
      · exact Or.inr ⟨row, List.mem_cons_self row rest, h1, h2⟩
      · exact Or.inr ⟨r2, List.mem_cons_of_mem row hm, h1, h2⟩
    · rintro (h | ⟨r2, hm, h1, h2⟩)
      · exact Or.inl (Or.inl h)
      · rcases List.mem_cons.mp hm with rfl | hmem
        · exact Or.inl (Or.inr ⟨h1, h2⟩)
        · exact Or.inr ⟨r2, hmem, h1, h2⟩

theorem wireNote_children_mem (k : String) (n : NoteShort) (rows : List Row) (x : String) :
    x ∈ (wireNote k n rows).children ↔ x ∈ n.children ∨ hasEdgeRow rows x k := by
  induction rows generalizing n with
  | nil => simp [wireNote, hasEdgeRow]
  | cons row rest ih =>
    unfold wireNote at *
    rw [List.foldl_cons, ih, wireStep_children_mem]
    unfold hasEdgeRow
    constructor
    · rintro ((h | ⟨h1, h2⟩) | ⟨r2, hm, h1, h2⟩)
      · exact Or.inl h
      · exact Or.inr ⟨row, List.mem_cons_self row rest, h2, h1⟩
      · exact Or.inr ⟨r2, List.mem_cons_of_mem row hm, h1, h2⟩
    · rintro (h | ⟨r2, hm, h1, h2⟩)
      · exact Or.inl (Or.inl h)
      · rcases List.mem_cons.mp hm with rfl | hmem
        · exact Or.inl (Or.inr ⟨h2, h1⟩)
        · exact Or.inr ⟨r2, hmem, h1, h2⟩

theorem wireStep_ptb (k : String) (n : NoteShort) (row : Row) (q : String) :
    (wireStep k n row).parentToBranch q =
      if row.noteId = k ∧ row.parentNoteId = q then some row.branchId
      else n.parentToBranch q := by
  unfold wireStep NoteShort.addParent NoteShort.addChild
  repeat' split
  all_goals simp_all [StrMap.set, @eq_comm String]
  all_goals aesop

theorem wireStep_ctb (k : String) (n : NoteShort) (row : Row) (q : String) :
    (wireStep k n row).childToBranch q =
      if row.parentNoteId = k ∧ row.noteId = q then some row.branchId
      else n.childToBranch q := by
  unfold wireStep NoteShort.addParent NoteShort.addChild
  repeat' split
  all_goals simp_all [StrMap.set, @eq_comm String]
  all_goals aesop

theorem wireNote_ptb (k : String) (n : NoteShort) (rows : List Row) (q : String) :
    (wireNote k n rows).parentToBranch q =
      match lastEdgeRowFor rows k q with
      | some row => some row.branchId
      | none => n.parentToBranch q := by
  induction rows generalizing n with
  | nil => rfl
  | cons row rest ih =>
    unfold wireNote at *
    rw [List.foldl_cons, ih, wireStep_ptb]
    unfold lastEdgeRowFor
    rw [lastWhere_cons]
    cases hrest : lastWhere (fun r2 => r2.noteId = k ∧ r2.parentNoteId = q) rest with
    | some r2 => simp [Option.or]
    | none =>
      simp only [Option.or]
      by_cases hcond : row.noteId = k ∧ row.parentNoteId = q <;> simp [hcond]

theorem wireNote_ctb (k : String) (n : NoteShort) (rows : List Row) (q : String) :
    (wireNote k n rows).childToBranch q =
      match lastEdgeRowFor rows q k with
      | some row => some row.branchId
      | none => n.childToBranch q := by
  induction rows generalizing n with
  | nil => rfl
  | cons row rest ih =>
    unfold wireNote at *
    rw [List.foldl_cons, ih, wireStep_ctb]
    unfold lastEdgeRowFor
    rw [lastWhere_cons]
    cases hrest : lastWhere (fun r2 => r2.noteId = q ∧ r2.parentNoteId = k) rest with
    | some r2 => simp [Option.or]
    | none =>
      simp only [Option.or]
      by_cases hcond : row.parentNoteId = k ∧ row.noteId = q <;> simp [hcond] <;> aesop

theorem attrWireStep_fields (K : String → Bool) (k : String) (n : NoteShort) (a : Row) :
    (attrWireStep K k n a).noteId = n.noteId ∧ (attrWireStep K k n a).type = n.type ∧
    (attrWireStep K k n a).title = n.title ∧ (attrWireStep K k n a).parents = n.parents ∧
    (attrWireStep K k n a).children = n.children ∧
    (attrWireStep K k n a).parentToBranch = n.parentToBranch ∧
    (attrWireStep K k n a).childToBranch = n.childToBranch := by
  unfold attrWireStep
  dsimp only
  repeat' split
  all_goals exact ⟨rfl, rfl, rfl, rfl, rfl, rfl, rfl⟩

theorem attrWireNote_fields (K : String → Bool) (k : String) (n : NoteShort) (A : List Row) :
    (attrWireNote K k n A).noteId = n.noteId ∧ (attrWireNote K k n A).type = n.type ∧
    (attrWireNote K k n A).title = n.title ∧ (attrWireNote K k n A).parents = n.parents ∧
    (attrWireNote K k n A).children = n.children ∧
    (attrWireNote K k n A).parentToBranch = n.parentToBranch ∧
    (attrWireNote K k n A).childToBranch = n.childToBranch := by
  induction A generalizing n with
  | nil => exact ⟨rfl, rfl, rfl, rfl, rfl, rfl, rfl⟩
  | cons a rest ih =>
    unfold attrWireNote at *
    rw [List.foldl_cons]
    obtain ⟨h1, h2, h3, h4, h5, h6, h7⟩ := ih (attrWireStep K k n a)
    obtain ⟨g1, g2, g3, g4, g5, g6, g7⟩ := attrWireStep_fields K k n a
    exact ⟨h1.trans g1, h2.trans g2, h3.trans g3, h4.trans g4, h5.trans g5,
      h6.trans g6, h7.trans g7⟩

theorem attrWireStep_attrs_mem (K : String → Bool) (k : String) (n : NoteShort) (a : Row)
    (x : String) :
    x ∈ (attrWireStep K k n a).attributes ↔
      x ∈ n.attributes ∨ (a.noteId = k ∧ a.attributeId = x) := by
  unfold attrWireStep
  dsimp only
  repeat' split
  all_goals simp_all
  all_goals aesop

theorem attrWireStep_tr_mem (K : String → Bool) (k : String) (n : NoteShort) (a : Row)
    (x : String) :
    x ∈ (attrWireStep K k n a).targetRelations ↔
      x ∈ n.targetRelations ∨
        (a.noteId = k ∧ a.type = "relation" ∧ K a.value = true ∧ a.attributeId = x) := by
  unfold attrWireStep
  dsimp only
  repeat' split
  all_goals simp_all
  all_goals aesop

theorem attrWireNote_attrs_mem (K : String → Bool) (k : String) (n : NoteShort) (A : List Row)
    (x : String) :
    x ∈ (attrWireNote K k n A).attributes ↔
      x ∈ n.attributes ∨ ∃ a ∈ A, a.noteId = k ∧ a.attributeId = x := by
  induction A generalizing n with
  | nil => simp [attrWireNote]
  | cons a rest ih =>
    unfold attrWireNote at *
    rw [List.foldl_cons, ih, attrWireStep_attrs_mem]
    constructor
    · rintro ((h | ⟨h1, h2⟩) | ⟨a2, hm, h1, h2⟩)
      · exact Or.inl h
      · exact Or.inr ⟨a, List.mem_cons_self a rest, h1, h2⟩
      · exact Or.inr ⟨a2, List.mem_cons_of_mem a hm, h1, h2⟩
    · rintro (h | ⟨a2, hm, h1, h2⟩)
      · exact Or.inl (Or.inl h)
      · rcases List.mem_cons.mp hm with rfl | hmem
        · exact Or.inl (Or.inr ⟨h1, h2⟩)
        · exact Or.inr ⟨a2, hmem, h1, h2⟩

theorem attrWireNote_tr_mem (K : String → Bool) (k : String) (n : NoteShort) (A : List Row)
    (x : String) :
    x ∈ (attrWireNote K k n A).targetRelations ↔
      x ∈ n.targetRelations ∨
        ∃ a ∈ A, a.noteId = k ∧ a.type = "relation" ∧ K a.value = true ∧ a.attributeId = x := by
  induction A generalizing n with
  | nil => simp [attrWireNote]
  | cons a rest ih =>
    unfold attrWireNote at *
    rw [List.foldl_cons, ih, attrWireStep_tr_mem]
    constructor
    · rintro ((h | ⟨h1, h2, h3, h4⟩) | ⟨a2, hm, h1, h2, h3, h4⟩)
      · exact Or.inl h
      · exact Or.inr ⟨a, List.mem_cons_self a rest, h1, h2, h3, h4⟩
      · exact Or.inr ⟨a2, List.mem_cons_of_mem a hm, h1, h2, h3, h4⟩
    · rintro (h | ⟨a2, hm, h1, h2, h3, h4⟩)
      · exact Or.inl (Or.inl h)
      · rcases List.mem_cons.mp hm with rfl | hmem
        · exact Or.inl (Or.inr ⟨h1, h2, h3, h4⟩)
        · exact Or.inr ⟨a2, hmem, h1, h2, h3, h4⟩

theorem attrWireStep_attrs_of_present (K : String → Bool) (k : String) (n : NoteShort) (a : Row)
    (h : a.noteId = k → a.attributeId ∈ n.attributes) :
    (attrWireStep K k n a).attributes = n.attributes := by
  unfold attrWireStep
  dsimp only
  repeat' split
  all_goals simp_all

theorem attrWireStep_tr_of_present (K : String → Bool) (k : String) (n : NoteShort) (a : Row)
    (h : a.noteId = k → a.type = "relation" → K a.value = true →
      a.attributeId ∈ n.targetRelations) :
    (attrWireStep K k n a).targetRelations = n.targetRelations := by
  unfold attrWireStep
  dsimp only
  repeat' split
  all_goals simp_all

theorem attrWireNote_attrs_of_present (K : String → Bool) (k : String) (n : NoteShort)
    (A : List Row) (h : ∀ a ∈ A, a.noteId = k → a.attributeId ∈ n.attributes) :
    (attrWireNote K k n A).attributes = n.attributes := by
  induction A generalizing n with
  | nil => rfl
  | cons a rest ih =>
    unfold attrWireNote at *
    rw [List.foldl_cons]
    have hstep := attrWireStep_attrs_of_present K k n a (h a (List.mem_cons_self a rest))
    rw [ih (attrWireStep K k n a) (fun a2 hm hk => by
      rw [hstep]; exact h a2 (List.mem_cons_of_mem a hm) hk), hstep]

theorem attrWireNote_tr_of_present (K : String → Bool) (k : String) (n : NoteShort)
    (A : List Row)
    (h : ∀ a ∈ A, a.noteId = k → a.type = "relation" → K a.value = true →
      a.attributeId ∈ n.targetRelations) :
    (attrWireNote K k n A).targetRelations = n.targetRelations := by
  induction A generalizing n with
  | nil => rfl
  | cons a rest ih =>
    unfold attrWireNote at *
    rw [List.foldl_cons]
    have hstep := attrWireStep_tr_of_present K k n a (h a (List.mem_cons_self a rest))
    rw [ih (attrWireStep K k n a) (fun a2 hm hk ht hK => by
      rw [hstep]; exact h a2 (List.mem_cons_of_mem a hm) hk ht hK), hstep]

theorem foldl_preserves_mem {α : Type} (f : Store → α → Store) (Q : Store → Prop) (l : List α)
    (s : Store) (h : ∀ s x, x ∈ l → Q s → Q (f s x)) (h0 : Q s) : Q (l.foldl f s) := by
  induction l generalizing s with
  | nil => exact h0
  | cons x rest ih =>
    rw [List.foldl_cons]
    exact ih (f s x) (fun s2 y hy hq => h s2 y (List.mem_cons_of_mem x hy) hq)
      (h s x (List.mem_cons_self x rest) h0)

theorem detachChildStep_notes_ne (r : String) (s : Store) (c : String) (k : String)
    (hk : k ≠ c) : (detachChildStep r s c).notes k = s.notes k := by
  unfold detachChildStep
  dsimp only
  split
  · rfl
  · dsimp only
    rw [StrMap.set_ne _ _ _ _ hk]
    split <;> rfl

theorem detachChildStep_notes_eq (r : String) (s : Store) (c : String) (cv : NoteShort)
    (hc : s.notes c = some cv) :
    (detachChildStep r s c).notes c = some
      { cv with parents := cv.parents.filter (fun p => p ≠ r)
                parentToBranch := cv.parentToBranch.erase r } := by
  unfold detachChildStep
  dsimp only
  split
  · simp_all
  · next cv2 heq =>
    rw [hc] at heq
    injection heq with heq
    subst heq
    dsimp only
    rw [StrMap.set_eq]

theorem detachChildStep_branches (r : String) (s : Store) (c : String) :
    (detachChildStep r s c).branches = s.branches ∨
    ∃ cv bid, s.notes c = some cv ∧ cv.parentToBranch r = some bid ∧
      (detachChildStep r s c).branches = s.branches.erase bid := by
  unfold detachChildStep
  dsimp only
  split
  · exact Or.inl rfl
  · next cv heq =>
    split
    · next bid hbid => exact Or.inr ⟨cv, bid, heq, hbid, rfl⟩
    · exact Or.inl rfl

theorem detachChildStep_attributes (r : String) (s : Store) (c : String) :
    (detachChildStep r s c).attributes = s.attributes := by
  unfold detachChildStep
  dsimp only
  repeat' split
  all_goals rfl

theorem detachChildStep_compl (r : String) (s : Store) (c : String) :
    (detachChildStep r s c).noteComplementPromises = s.noteComplementPromises := by
  unfold detachChildStep
  dsimp only
  repeat' split
  all_goals rfl

theorem detachParentStep_notes_ne (r : String) (s : Store) (p : String) (k : String)
    (hk : k ≠ p) : (detachParentStep r s p).notes k = s.notes k := by
  unfold detachParentStep
  dsimp only
  split
  · rfl
  · dsimp only
    rw [StrMap.set_ne _ _ _ _ hk]
    split <;> rfl

theorem detachParentStep_notes_eq (r : String) (s : Store) (p : String) (pv : NoteShort)
    (hp : s.notes p = some pv) :
    (detachParentStep r s p).notes p = some
      { pv with children := pv.children.filter (fun c => c ≠ r)
                childToBranch := pv.childToBranch.erase r } := by
  unfold detachParentStep
  dsimp only
  split
  · simp_all
  · next pv2 heq =>
    rw [hp] at heq
    injection heq with heq
    subst heq
    dsimp only
    rw [StrMap.set_eq]

theorem detachParentStep_branches (r : String) (s : Store) (p : String) :
    (detachParentStep r s p).branches = s.branches ∨
    ∃ pv bid, s.notes p = some pv ∧ pv.childToBranch r = some bid ∧
      (detachParentStep r s p).branches = s.branches.erase bid := by
  unfold detachParentStep
  dsimp only
  split
  · exact Or.inl rfl
  · next pv heq =>
    split
    · next bid hbid => exact Or.inr ⟨pv, bid, heq, hbid, rfl⟩
    · exact Or.inl rfl

theorem detachParentStep_attributes (r : String) (s : Store) (p : String) :
    (detachParentStep r s p).attributes = s.attributes := by
  unfold detachParentStep
  dsimp only
  repeat' split
  all_goals rfl

theorem detachParentStep_compl (r : String) (s : Store) (p : String) :
    (detachParentStep r s p).noteComplementPromises = s.noteComplementPromises := by
  unfold detachParentStep
  dsimp only
  repeat' split
  all_goals rfl

theorem detachChildStep_eq_of_none (r : String) (s : Store) (c : String)
    (hc : s.notes c = none) : detachChildStep r s c = s := by
  unfold detachChildStep
  rw [hc]

theorem detachParentStep_eq_of_none (r : String) (s : Store) (p : String)
    (hp : s.notes p = none) : detachParentStep r s p = s := by
  unfold detachParentStep
  rw [hp]

theorem detachChildStep_isSome (r : String) (s : Store) (c q : String) :
    ((detachChildStep r s c).notes q).isSome = (s.notes q).isSome := by
  cases hc : s.notes c with
  | none => rw [detachChildStep_eq_of_none r s c hc]
  | some cv =>
    by_cases hq : q = c
    · subst hq
      rw [detachChildStep_notes_eq r s q cv hc, hc]
      rfl
    · rw [detachChildStep_notes_ne r s c q hq]

theorem detachParentStep_isSome (r : String) (s : Store) (p q : String) :
    ((detachParentStep r s p).notes q).isSome = (s.notes q).isSome := by
  cases hp : s.notes p with
  | none => rw [detachParentStep_eq_of_none r s p hp]
  | some pv =>
    by_cases hq : q = p
    · subst hq
      rw [detachParentStep_notes_eq r s q pv hp, hp]
      rfl
    · rw [detachParentStep_notes_ne r s p q hq]

theorem detachOldNote_isSome (s : Store) (r : String) (q : String) :
    ((detachOldNote s r).notes q).isSome = (s.notes q).isSome := by
  unfold detachOldNote
  split
  · rfl
  · next nr heq =>
    have h1 : ∀ (s2 : Store), (∀ x, (s2.notes x).isSome = (s.notes x).isSome) →
        ∀ (cs : List String),
          ∀ x, ((cs.foldl (detachChildStep r) s2).notes x).isSome = (s.notes x).isSome := by
      intro s2 hs2 cs
      induction cs generalizing s2 with
      | nil => exact hs2
      | cons c rest ih =>
        rw [List.foldl_cons]
        exact ih (detachChildStep r s2 c)
          (fun x => (detachChildStep_isSome r s2 c x).trans (hs2 x))
    have h2 : ∀ (s2 : Store), (∀ x, (s2.notes x).isSome = (s.notes x).isSome) →
        ∀ (ps : List String),
          ∀ x, ((ps.foldl (detachParentStep r) s2).notes x).isSome = (s.notes x).isSome := by
      intro s2 hs2 ps
      induction ps generalizing s2 with
      | nil => exact hs2
      | cons p rest ih =>
        rw [List.foldl_cons]
        exact ih (detachParentStep r s2 p)
          (fun x => (detachParentStep_isSome r s2 p x).trans (hs2 x))
    exact h2 _ (h1 s (fun _ => rfl) nr.children) _ q

theorem addNoteRow_isSome (s : Store) (row : Row) (q : String) :
    ((addNoteRow s row).notes q).isSome =
      ((s.notes q).isSome || q = row.noteId) := by
  unfold addNoteRow
  dsimp only
  by_cases hq : q = row.noteId
  · subst hq
    rw [StrMap.set_eq]
    simp
  · rw [StrMap.set_ne _ _ _ _ hq, detachOldNote_isSome]
    simp [hq]

theorem detachChildStep_preserves_empty (r : String) (s : Store) (c k : String)
    (nk : NoteShort) (hk : s.notes k = some nk) (hpar : nk.parents = [])
    (hptb : ∀ q, nk.parentToBranch q = none) :
    (detachChildStep r s c).notes k = some nk := by
  by_cases hkc : k = c
  · subst hkc
    have h1 : nk.parents.filter (fun p => p ≠ r) = nk.parents := by rw [hpar]; rfl
    have h2 : nk.parentToBranch.erase r = nk.parentToBranch := by
      funext q
      by_cases hq : q = r <;> simp [StrMap.erase, hq, hptb]
    rw [detachChildStep_notes_eq r s k nk hk, h1, h2]
  · rw [detachChildStep_notes_ne r s c k hkc]
    exact hk

theorem detachParentStep_preserves_empty (r : String) (s : Store) (p k : String)
    (nk : NoteShort) (hk : s.notes k = some nk) (hch : nk.children = [])
    (hctb : ∀ q, nk.childToBranch q = none) :
    (detachParentStep r s p).notes k = some nk := by
  by_cases hkp : k = p
  · subst hkp
    have h1 : nk.children.filter (fun c => c ≠ r) = nk.children := by rw [hch]; rfl
    have h2 : nk.childToBranch.erase r = nk.childToBranch := by
      funext q
      by_cases hq : q = r <;> simp [StrMap.erase, hq, hctb]
    rw [detachParentStep_notes_eq r s k nk hk, h1, h2]
  · rw [detachParentStep_notes_ne r s p k hkp]
    exact hk

theorem detachOldNote_preserves_fresh (s : Store) (r k : String) (row0 : Row)
    (hk : s.notes k = some (NoteShort.fromRow row0)) :
    (detachOldNote s r).notes k = some (NoteShort.fromRow row0) := by
  unfold detachOldNote
  split
  · exact hk
  · next nr heq =>
    have h1 : ∀ (s2 : Store) (cs : List String),
        s2.notes k = some (NoteShort.fromRow row0) →
        (cs.foldl (detachChildStep r) s2).notes k = some (NoteShort.fromRow row0) := by
      intro s2 cs
      induction cs generalizing s2 with
      | nil => exact id
      | cons c rest ih =>
        intro hs2
        rw [List.foldl_cons]
        exact ih (detachChildStep r s2 c)
          (detachChildStep_preserves_empty r s2 c k _ hs2 rfl (fun _ => rfl))
    have h2 : ∀ (s2 : Store) (ps : List String),
        s2.notes k = some (NoteShort.fromRow row0) →
        (ps.foldl (detachParentStep r) s2).notes k = some (NoteShort.fromRow row0) := by
      intro s2 ps
      induction ps generalizing s2 with
      | nil => exact id
      | cons p rest ih =>
        intro hs2
        rw [List.foldl_cons]
        exact ih (detachParentStep r s2 p)
          (detachParentStep_preserves_empty r s2 p k _ hs2 rfl (fun _ => rfl))
    exact h2 _ _ (h1 s nr.children hk)

theorem addNoteRow_preserves_fresh (s : Store) (row row0 : Row) (k : String)
    (hk : s.notes k = some (NoteShort.fromRow row0)) (hne : k ≠ row.noteId) :
    (addNoteRow s row).notes k = some (NoteShort.fromRow row0) := by
  unfold addNoteRow
  dsimp only
  rw [StrMap.set_ne _ _ _ _ hne]
  exact detachOldNote_preserves_fresh s row.noteId k row0 hk

theorem addNoteRow_fresh (s : Store) (row : Row) :
    (addNoteRow s row).notes row.noteId = some (NoteShort.fromRow row) := by
  unfold addNoteRow
  dsimp only
  rw [StrMap.set_eq]

theorem noteP_fresh (N : List Row) (s : Store) (r : String) (row : Row)
    (h : lastNoteRowFor N r = some row) :
    (N.foldl addNoteRow s).notes r = some (NoteShort.fromRow row) := by
  induction N generalizing s with
  | nil => exact absurd h (by simp [lastNoteRowFor, lastWhere])
  | cons row2 rest ih =>
    rw [List.foldl_cons]
    unfold lastNoteRowFor at h
    rw [lastWhere_cons] at h
    cases hrest : lastWhere (fun row => row.noteId = r) rest with
    | some rowR =>
      rw [hrest] at h
      simp only [Option.or] at h
      injection h with h
      subst h
      exact ih (addNoteRow s row2) hrest
    | none =>
      rw [hrest] at h
      simp only [Option.or] at h
      by_cases hcond : row2.noteId = r
      · rw [if_pos hcond] at h
        injection h with h
        have hbase : (addNoteRow s row2).notes r = some (NoteShort.fromRow row) := by
          rw [← h, ← hcond]
          exact addNoteRow_fresh s row2
        have hnone := (lastWhere_eq_none_iff _ rest).mp hrest
        exact foldl_preserves_mem addNoteRow
          (fun s2 => s2.notes r = some (NoteShort.fromRow row)) rest _
          (fun s2 row3 hm hq =>
            addNoteRow_preserves_fresh s2 row3 row r hq (fun hh => hnone row3 hm hh.symm))
          hbase
      · rw [if_neg hcond] at h
        exact absurd h (by simp)

theorem detachOldNote_attributes (s : Store) (r : String) :
    (detachOldNote s r).attributes = s.attributes := by
  unfold detachOldNote
  split
  · rfl
  · next nr heq =>
    have h1 : ∀ (s2 : Store) (cs : List String),
        (cs.foldl (detachChildStep r) s2).attributes = s2.attributes := by
      intro s2 cs
      induction cs generalizing s2 with
      | nil => rfl
      | cons c rest ih =>
        rw [List.foldl_cons, ih, detachChildStep_attributes]
    have h2 : ∀ (s2 : Store) (ps : List String),
        (ps.foldl (detachParentStep r) s2).attributes = s2.attributes := by
      intro s2 ps
      induction ps generalizing s2 with
      | nil => rfl
      | cons p rest ih =>
        rw [List.foldl_cons, ih, detachParentStep_attributes]
    rw [h2, h1]

theorem detachOldNote_compl (s : Store) (r : String) :
    (detachOldNote s r).noteComplementPromises = s.noteComplementPromises := by
  unfold detachOldNote
  split
  · rfl
  · next nr heq =>
    have h1 : ∀ (s2 : Store) (cs : List String),
        (cs.foldl (detachChildStep r) s2).noteComplementPromises = s2.noteComplementPromises := by
      intro s2 cs
      induction cs generalizing s2 with
      | nil => rfl
      | cons c rest ih =>
        rw [List.foldl_cons, ih, detachChildStep_compl]
    have h2 : ∀ (s2 : Store) (ps : List String),
        (ps.foldl (detachParentStep r) s2).noteComplementPromises = s2.noteComplementPromises := by
      intro s2 ps
      induction ps generalizing s2 with
      | nil => rfl
      | cons p rest ih =>
        rw [List.foldl_cons, ih, detachParentStep_compl]
    rw [h2, h1]

theorem noteP_attributes (N : List Row) (s : Store) :
    (N.foldl addNoteRow s).attributes = s.attributes := by
  induction N generalizing s with
  | nil => rfl
  | cons row rest ih =>
    rw [List.foldl_cons, ih]
    unfold addNoteRow
    dsimp only
    rw [detachOldNote_attributes]

theorem noteP_compl (N : List Row) (s : Store) :
    (N.foldl addNoteRow s).noteComplementPromises = s.noteComplementPromises := by
  induction N generalizing s with
  | nil => rfl
  | cons row rest ih =>
    rw [List.foldl_cons, ih]
    unfold addNoteRow
    dsimp only
    rw [detachOldNote_compl]

theorem boundNote_refl (B : List Row) (k : String) (nk : NoteShort) : BoundNote B k nk nk :=
  ⟨rfl, rfl, rfl, fun _ h => h, fun _ h => Or.inl h, fun _ h => h, fun _ h => Or.inl h,
    fun _ => Or.inl rfl, fun _ => Or.inl rfl, rfl, rfl⟩

theorem detachInv_base (B : List Row) (s1 : Store) : DetachInv B s1 [] s1 :=
  ⟨fun _ => rfl,
    fun r row h => absurd h (by simp [lastNoteRowFor, lastWhere]),
    fun k nk vk _ h1 h2 => by
      rw [h1] at h2
      injection h2 with h2
      rw [← h2]
      exact boundNote_refl B k nk,
    fun _ _ => rfl, rfl, rfl⟩

theorem detachChildStep_inv (N B : List Row) (s1 : Store) (P : List Row) (V : Store)
    (hcoh : DetachCoh N B s1) (hinv : DetachInv B s1 P V) (r c : String)
    (hc : hasEdgeRow B c r) :
    DetachInv B s1 P (detachChildStep r V c) := by
  obtain ⟨hfresh, hptbC, hctbC⟩ := hcoh
  obtain ⟨hi, hii, hiii, hiv, hv, hvi⟩ := hinv
  cases hvc : V.notes c with
  | none =>
    rw [detachChildStep_eq_of_none r V c hvc]
    exact ⟨hi, hii, hiii, hiv, hv, hvi⟩
  | some cv =>
    have hnotes_eq := detachChildStep_notes_eq r V c cv hvc
    refine ⟨fun q => (detachChildStep_isSome r V c q).trans (hi q), ?_, ?_, ?_, ?_, ?_⟩
    · intro r2 row2 h2
      by_cases hr2 : r2 = c
      · subst hr2
        exact detachChildStep_preserves_empty r V _ r2 _ (hii r2 row2 h2) rfl (fun _ => rfl)
      · rw [detachChildStep_notes_ne r V c r2 hr2]
        exact hii r2 row2 h2
    · intro k nk vk hPk hs1k hvk
      by_cases hk : k = c
      · subst hk
        rw [hnotes_eq] at hvk
        injection hvk with hvk
        obtain ⟨b1, b2, b3, b4, b5, b6, b7, b8, b9, b10, b11⟩ := hiii k nk cv hPk hs1k hvc
        rw [← hvk]
        refine ⟨b1, b2, b3, ?_, ?_, b6, b7, ?_, b9, b10, b11⟩
        · intro p hp
          exact b4 p (List.mem_of_mem_filter hp)
        · intro p hp
          rcases b5 p hp with hmem | hedge
          · by_cases hpr : p = r
            · subst hpr
              exact Or.inr hc
            · exact Or.inl (List.mem_filter.mpr ⟨hmem, by simp [hpr]⟩)
          · exact Or.inr hedge
        · intro q
          dsimp only
          by_cases hq : q = r
          · subst hq
            exact Or.inr ⟨StrMap.erase_eq _ _, hc⟩
          · rw [StrMap.erase_ne _ _ _ hq]
            exact b8 q
      · rw [detachChildStep_notes_ne r V c k hk] at hvk
        exact hiii k nk vk hPk hs1k hvk
    · intro bid hbid
      rcases detachChildStep_branches r V c with heq | ⟨cv2, bide, hcv2, hmap, heq⟩
      · rw [heq]
        exact hiv bid hbid
      · rw [hvc] at hcv2
        injection hcv2 with hcv2
        subst hcv2
        cases hPc : lastNoteRowFor P c with
        | some row2 =>
          have := hii c row2 hPc
          rw [hvc] at this
          injection this with this
          rw [this] at hmap
          exact absurd hmap (by simp [NoteShort.fromRow, StrMap.empty])
        | none =>
          have hs1c : ∃ nc, s1.notes c = some nc := by
            have := hi c
            rw [hvc] at this
            exact Option.isSome_iff_exists.mp this.symm
          obtain ⟨nc, hnc⟩ := hs1c
          obtain ⟨_, _, _, _, _, _, _, b8, _, _, _⟩ := hiii c nc cv hPc hnc hvc
          rcases b8 r with hmapeq | ⟨hnone, _⟩
          · have hbatch := hptbC c nc r bide hnc hc (hmapeq ▸ hmap)
            rw [heq, StrMap.erase_ne _ _ _ (fun hh => hbid (by rw [hh]; exact hbatch))]
            exact hiv bid hbid
          · rw [hnone] at hmap
            exact absurd hmap (by simp)
    · rw [detachChildStep_attributes]
      exact hv
    · rw [detachChildStep_compl]
      exact hvi

theorem detachParentStep_inv (N B : List Row) (s1 : Store) (P : List Row) (V : Store)
    (hcoh : DetachCoh N B s1) (hinv : DetachInv B s1 P V) (r p : String)
    (hp : hasEdgeRow B r p) :
    DetachInv B s1 P (detachParentStep r V p) := by
  obtain ⟨hfresh, hptbC, hctbC⟩ := hcoh
  obtain ⟨hi, hii, hiii, hiv, hv, hvi⟩ := hinv
  cases hvp : V.notes p with
  | none =>
    rw [detachParentStep_eq_of_none r V p hvp]
    exact ⟨hi, hii, hiii, hiv, hv, hvi⟩
  | some pv =>
    have hnotes_eq := detachParentStep_notes_eq r V p pv hvp
    refine ⟨fun q => (detachParentStep_isSome r V p q).trans (hi q), ?_, ?_, ?_, ?_, ?_⟩
    · intro r2 row2 h2
      by_cases hr2 : r2 = p
      · subst hr2
        exact detachParentStep_preserves_empty r V _ r2 _ (hii r2 row2 h2) rfl (fun _ => rfl)
      · rw [detachParentStep_notes_ne r V p r2 hr2]
        exact hii r2 row2 h2
    · intro k nk vk hPk hs1k hvk
      by_cases hk : k = p
      · subst hk
        rw [hnotes_eq] at hvk
        injection hvk with hvk
        obtain ⟨b1, b2, b3, b4, b5, b6, b7, b8, b9, b10, b11⟩ := hiii k nk pv hPk hs1k hvp
        rw [← hvk]
        refine ⟨b1, b2, b3, b4, b5, ?_, ?_, b8, ?_, b10, b11⟩
        · intro c hcm
          exact b6 c (List.mem_of_mem_filter hcm)
        · intro c hcm
          rcases b7 c hcm with hmem | hedge
          · by_cases hcr : c = r
            · subst hcr
              exact Or.inr hp
            · exact Or.inl (List.mem_filter.mpr ⟨hmem, by simp [hcr]⟩)
          · exact Or.inr hedge
        · intro q
          dsimp only
          by_cases hq : q = r
          · subst hq
            exact Or.inr ⟨StrMap.erase_eq _ _, hp⟩
          · rw [StrMap.erase_ne _ _ _ hq]
            exact b9 q
      · rw [detachParentStep_notes_ne r V p k hk] at hvk
        exact hiii k nk vk hPk hs1k hvk
    · intro bid hbid
      rcases detachParentStep_branches r V p with heq | ⟨pv2, bide, hpv2, hmap, heq⟩
      · rw [heq]
        exact hiv bid hbid
      · rw [hvp] at hpv2
        injection hpv2 with hpv2
        subst hpv2
        cases hPp : lastNoteRowFor P p with
        | some row2 =>
          have := hii p row2 hPp
          rw [hvp] at this
          injection this with this
          rw [this] at hmap
          exact absurd hmap (by simp [NoteShort.fromRow, StrMap.empty])
        | none =>
          have hs1p : ∃ np, s1.notes p = some np := by
            have := hi p
            rw [hvp] at this
            exact Option.isSome_iff_exists.mp this.symm
          obtain ⟨np, hnp⟩ := hs1p
          obtain ⟨_, _, _, _, _, _, _, _, b9, _, _⟩ := hiii p np pv hPp hnp hvp
          rcases b9 r with hmapeq | ⟨hnone, _⟩
          · have hbatch := hctbC p np r bide hnp hp (hmapeq ▸ hmap)
            rw [heq, StrMap.erase_ne _ _ _ (fun hh => hbid (by rw [hh]; exact hbatch))]
            exact hiv bid hbid
          · rw [hnone] at hmap
            exact absurd hmap (by simp)
    · rw [detachParentStep_attributes]
      exact hv
    · rw [detachParentStep_compl]
      exact hvi

theorem detachOldNote_inv (N B : List Row) (s1 : Store) (P : List Row) (V : Store)
    (hcoh : DetachCoh N B s1) (hinv : DetachInv B s1 P V) (r : String)
    (hcover : ∃ row ∈ N, row.noteId = r) :
    DetachInv B s1 P (detachOldNote V r) := by
  have hfold1 : ∀ (cs : List String) (W : Store), (∀ c ∈ cs, hasEdgeRow B c r) →
      DetachInv B s1 P W → DetachInv B s1 P (cs.foldl (detachChildStep r) W) := by
    intro cs
    induction cs with
    | nil => exact fun W _ hW => hW
    | cons c rest ih =>
      intro W hcs hW
      rw [List.foldl_cons]
      exact ih _ (fun c2 h2 => hcs c2 (List.mem_cons_of_mem _ h2))
        (detachChildStep_inv N B s1 P W hcoh hW r c (hcs c (List.mem_cons_self _ _)))
  have hfold2 : ∀ (ps : List String) (W : Store), (∀ p ∈ ps, hasEdgeRow B r p) →
      DetachInv B s1 P W → DetachInv B s1 P (ps.foldl (detachParentStep r) W) := by
    intro ps
    induction ps with
    | nil => exact fun W _ hW => hW
    | cons p rest ih =>
      intro W hps hW
      rw [List.foldl_cons]
      exact ih _ (fun p2 h2 => hps p2 (List.mem_cons_of_mem _ h2))
        (detachParentStep_inv N B s1 P W hcoh hW r p (hps p (List.mem_cons_self _ _)))
  unfold detachOldNote
  split
  · exact hinv
  · next vr heq =>
    have hchild : ∀ c ∈ vr.children, hasEdgeRow B c r := by
      cases hPr : lastNoteRowFor P r with
      | some row =>
        have hfr := hinv.2.1 r row hPr
        rw [heq] at hfr
        injection hfr with hfr
        rw [hfr]
        intro c hcm
        exact absurd hcm (by simp [NoteShort.fromRow])
      | none =>
        obtain ⟨nr, hnr, hnrc, _⟩ := hcoh.1 r hcover
        have hb := hinv.2.2.1 r nr vr hPr hnr heq
        intro c hcm
        exact hnrc c (hb.2.2.2.2.2.1 c hcm)
    have hinv1 := hfold1 vr.children V hchild hinv
    dsimp only
    cases hval : (vr.children.foldl (detachChildStep r) V).notes r with
    | some cur =>
      have hpar : ∀ p ∈ cur.parents, hasEdgeRow B r p := by
        cases hPr : lastNoteRowFor P r with
        | some row =>
          have hfr := hinv1.2.1 r row hPr
          rw [hval] at hfr
          injection hfr with hfr
          rw [hfr]
          intro p hpm
          exact absurd hpm (by simp [NoteShort.fromRow])
        | none =>
          obtain ⟨nr, hnr, _, hnrp⟩ := hcoh.1 r hcover
          have hb := hinv1.2.2.1 r nr cur hPr hnr hval
          intro p hpm
          exact hnrp p (hb.2.2.2.1 p hpm)
      exact hfold2 cur.parents _ hpar hinv1
    | none =>
      have hpar : ∀ p ∈ vr.parents, hasEdgeRow B r p := by
        cases hPr : lastNoteRowFor P r with
        | some row =>
          have hfr := hinv.2.1 r row hPr
          rw [heq] at hfr
          injection hfr with hfr
          rw [hfr]
          intro p hpm
          exact absurd hpm (by simp [NoteShort.fromRow])
        | none =>
          obtain ⟨nr, hnr, _, hnrp⟩ := hcoh.1 r hcover
          have hb := hinv.2.2.1 r nr vr hPr hnr heq
          intro p hpm
          exact hnrp p (hb.2.2.2.1 p hpm)
      exact hfold2 vr.parents _ hpar hinv1

theorem lastWhere_append_single {α : Type} (P : α → Prop) [DecidablePred P] (l : List α)
    (x : α) :
    lastWhere P (l ++ [x]) = if P x then some x else lastWhere P l := by
  unfold lastWhere
  rw [List.foldl_append, List.foldl_cons, List.foldl_nil]

theorem lastNoteRowFor_append_single (ps : List Row) (row : Row) (r : String) :
    lastNoteRowFor (ps ++ [row]) r =
      if row.noteId = r then some row else lastNoteRowFor ps r := by
  unfold lastNoteRowFor
  rw [lastWhere_append_single]

theorem addNoteRow_inv (N B : List Row) (s1 : Store) (P : List Row) (V : Store)
    (hcoh : DetachCoh N B s1) (hinv : DetachInv B s1 P V) (row : Row) (hrow : row ∈ N) :
    DetachInv B s1 (P ++ [row]) (addNoteRow V row) := by
  obtain ⟨hi, hii, hiii, hiv, hv, hvi⟩ :=
    detachOldNote_inv N B s1 P V hcoh hinv row.noteId ⟨row, hrow, rfl⟩
  obtain ⟨nr, hnr, -, -⟩ := hcoh.1 row.noteId ⟨row, hrow, rfl⟩
  unfold addNoteRow
  dsimp only
  refine ⟨?_, ?_, ?_, ?_, ?_, ?_⟩
  · intro q
    dsimp only
    by_cases hq : q = row.noteId
    · subst hq
      rw [StrMap.set_eq, hnr]
      rfl
    · rw [StrMap.set_ne _ _ _ _ hq]
      exact hi q
  · intro r row2 h2
    dsimp only
    rw [lastNoteRowFor_append_single] at h2
    by_cases hr : row.noteId = r
    · rw [if_pos hr] at h2
      injection h2 with h2
      subst h2
      rw [← hr, StrMap.set_eq]
    · rw [if_neg hr] at h2
      rw [StrMap.set_ne _ _ _ _ (fun hh => hr hh.symm)]
      exact hii r row2 h2
  · intro k nk vk hPk hs1k hvk
    dsimp only at hvk
    rw [lastNoteRowFor_append_single] at hPk
    by_cases hk : row.noteId = k
    · rw [if_pos hk] at hPk
      exact absurd hPk (by simp)
    · rw [if_neg hk] at hPk
      rw [StrMap.set_ne _ _ _ _ (fun hh => hk hh.symm)] at hvk
      exact hiii k nk vk hPk hs1k hvk
  · exact hiv
  · exact hv
  · exact hvi

theorem noteFoldSuffix_inv (N B : List Row) (s1 : Store) (hcoh : DetachCoh N B s1) :
    ∀ (rest P : List Row) (V : Store), (∀ r ∈ rest, r ∈ N) → DetachInv B s1 P V →
      DetachInv B s1 (P ++ rest) (rest.foldl addNoteRow V) := by
  intro rest
  induction rest with
  | nil =>
    intro P V _ hV
    simpa using hV
  | cons row rest2 ih =>
    intro P V hmem hV
    rw [List.foldl_cons]
    have h1 := addNoteRow_inv N B s1 P V hcoh hV row (hmem row (List.mem_cons_self _ _))
    have heq : P ++ row :: rest2 = (P ++ [row]) ++ rest2 := by simp
    rw [heq]
    exact ih (P ++ [row]) _ (fun r h2 => hmem r (List.mem_cons_of_mem _ h2)) h1

theorem noteP_inv (N B : List Row) (s1 : Store) (hcoh : DetachCoh N B s1) :
    DetachInv B s1 N (N.foldl addNoteRow s1) := by
  have h := noteFoldSuffix_inv N B s1 hcoh N [] s1 (fun _ h2 => h2) (detachInv_base B s1)
  simpa using h

theorem lastNoteRowFor_of_sent (N : List Row) (r : String) (h : ∃ row ∈ N, row.noteId = r) :
    ∃ row0, lastNoteRowFor N r = some row0 := by
  unfold lastNoteRowFor
  cases hl : lastWhere (fun row => row.noteId = r) N with
  | some row0 => exact ⟨row0, rfl⟩
  | none =>
    obtain ⟨row, hm, hr⟩ := h
    exact absurd hr ((lastWhere_eq_none_iff _ N).mp hl row hm)

theorem lastEdgeRowFor_of_edge (B : List Row) (c p : String) (h : hasEdgeRow B c p) :
    ∃ row, lastEdgeRowFor B c p = some row ∧ row ∈ B ∧ row.noteId = c ∧
      row.parentNoteId = p := by
  unfold lastEdgeRowFor
  cases hl : lastWhere (fun row => row.noteId = c ∧ row.parentNoteId = p) B with
  | some row =>
    obtain ⟨hm, h1, h2⟩ := lastWhere_mem _ B row hl
    exact ⟨row, rfl, hm, h1, h2⟩
  | none =>
    obtain ⟨row, hm, h1, h2⟩ := h
    exact absurd ⟨h1, h2⟩ ((lastWhere_eq_none_iff _ B).mp hl row hm)

theorem lastEdgeRowFor_eq_none (B : List Row) (c p : String)
    (h : lastEdgeRowFor B c p = none) : ¬hasEdgeRow B c p := by
  unfold lastEdgeRowFor at h
  intro hedge
  obtain ⟨row, hm, h1, h2⟩ := hedge
  exact (lastWhere_eq_none_iff _ B).mp h row hm ⟨h1, h2⟩

theorem foldl_set_char {V : Type} (keyf : Row → String) (valf : Row → V) (A : List Row)
    (m : StrMap V) (q : String) :
    (A.foldl (fun m2 a => m2.set (keyf a) (valf a)) m) q =
      match lastWhere (fun a => keyf a = q) A with
      | some a => some (valf a)
      | none => m q := by
  induction A generalizing m with
  | nil => rfl
  | cons a rest ih =>
    rw [List.foldl_cons, ih, lastWhere_cons]
    cases hrest : lastWhere (fun a => keyf a = q) rest with
    | some a2 => simp [Option.or]
    | none =>
      simp only [Option.or]
      by_cases hq : keyf a = q
      · subst hq
        rw [if_pos rfl, StrMap.set_eq]
      · rw [if_neg hq, StrMap.set_ne _ _ _ _ (fun hh => hq hh.symm)]

theorem foldl_set_idem {V : Type} (keyf : Row → String) (valf : Row → V) (A : List Row)
    (m : StrMap V) :
    A.foldl (fun m2 a => m2.set (keyf a) (valf a))
        (A.foldl (fun m2 a => m2.set (keyf a) (valf a)) m)
      = A.foldl (fun m2 a => m2.set (keyf a) (valf a)) m := by
  funext q
  rw [foldl_set_char keyf valf, foldl_set_char keyf valf]
  cases h : lastWhere (fun a => keyf a = q) A with
  | some a => rfl
  | none => rfl

theorem noteEquiv_refl (n : NoteShort) : NoteEquiv n n :=
  ⟨rfl, rfl, rfl, fun _ => Iff.rfl, fun _ => Iff.rfl, rfl, rfl,
    fun _ => Iff.rfl, fun _ => Iff.rfl⟩

theorem addResp_char (s0 : Store) (N B A : List Row) (s1 : Store)
    (h : addResp s0 N B A = some s1) :
    (∀ k, s1.notes k = ((N.foldl addNoteRow s0).notes k).map (fun n =>
        attrWireNote (fun q => ((N.foldl addNoteRow s0).notes q).isSome) k
          (wireNote k n B) A)) ∧
    s1.branches = B.foldl (fun m row => m.set row.branchId (Branch.fromRow row))
        (N.foldl addNoteRow s0).branches ∧
    s1.attributes = A.foldl (fun m a => m.set a.attributeId (Attribute.fromRow a))
        (N.foldl addNoteRow s0).attributes ∧
    s1.noteComplementPromises = (N.foldl addNoteRow s0).noteComplementPromises ∧
    (∀ a ∈ A, ((N.foldl addNoteRow s0).notes a.noteId).isSome = true) := by
  unfold addResp at h
  dsimp only at h
  have howners := attrP_success_owners A _ s1 h
  have hAown : ∀ a ∈ A, ((N.foldl addNoteRow s0).notes a.noteId).isSome = true := by
    intro a ha
    have h2 := howners a ha
    rw [branchP_notes] at h2
    cases hx : (N.foldl addNoteRow s0).notes a.noteId with
    | some n => rfl
    | none => rw [hx] at h2; exact absurd h2 (by simp)
  rw [attrP_char A _ howners] at h
  injection h with h
  subst h
  have hKeq : (fun q => ((B.foldl addBranchRow (N.foldl addNoteRow s0)).notes q).isSome)
      = (fun q => ((N.foldl addNoteRow s0).notes q).isSome) := by
    funext q
    rw [branchP_notes]
    cases (N.foldl addNoteRow s0).notes q <;> rfl
  refine ⟨?_, ?_, ?_, ?_, hAown⟩
  · intro k
    dsimp only
    rw [hKeq, branchP_notes]
    cases hk : (N.foldl addNoteRow s0).notes k <;> simp
  · dsimp only
    rw [branchP_branches]
  · dsimp only
    rw [branchP_attributes]
  · dsimp only
    rw [branchP_compl]

theorem detachCoh_of_run (s0 : Store) (N B A : List Row) (s1 : Store)
    (h : addResp s0 N B A = some s1) : DetachCoh N B s1 := by
  obtain ⟨hnotes, -, -, -, -⟩ := addResp_char s0 N B A s1 h
  refine ⟨?_, ?_, ?_⟩
  · intro r hr
    obtain ⟨row0, hrow0⟩ := lastNoteRowFor_of_sent N r hr
    have hfresh := noteP_fresh N s0 r row0 hrow0
    have hs1r : s1.notes r = some
        (attrWireNote (fun q => ((N.foldl addNoteRow s0).notes q).isSome) r
          (wireNote r (NoteShort.fromRow row0) B) A) := by
      rw [hnotes r, hfresh]
      rfl
    refine ⟨_, hs1r, ?_, ?_⟩
    · intro c hc
      rw [(attrWireNote_fields _ r _ A).2.2.2.2.1] at hc
      rcases (wireNote_children_mem r _ B c).mp hc with h2 | h2
      · exact absurd h2 (by simp [NoteShort.fromRow])
      · exact h2
    · intro p hp
      rw [(attrWireNote_fields _ r _ A).2.2.2.1] at hp
      rcases (wireNote_parents_mem r _ B p).mp hp with h2 | h2
      · exact absurd h2 (by simp [NoteShort.fromRow])
      · exact h2
  · intro k nk p bid hk hedge hptb
    obtain ⟨row, hrow, hm, -, -⟩ := lastEdgeRowFor_of_edge B k p hedge
    have h2 := hnotes k
    rw [hk] at h2
    cases hsk : (N.foldl addNoteRow s0).notes k with
    | none => rw [hsk] at h2; exact absurd h2 (by simp)
    | some n0 =>
      rw [hsk] at h2
      simp only [Option.map_some'] at h2
      injection h2 with h2
      have hw : nk.parentToBranch p = (wireNote k n0 B).parentToBranch p := by
        rw [h2]
        exact congrFun (attrWireNote_fields _ k _ A).2.2.2.2.2.1 p
      rw [hw, wireNote_ptb, hrow] at hptb
      dsimp only at hptb
      injection hptb with hb
      exact ⟨row, hm, hb⟩
  · intro k nk c bid hk hedge hctb
    obtain ⟨row, hrow, hm, -, -⟩ := lastEdgeRowFor_of_edge B c k hedge
    have h2 := hnotes k
    rw [hk] at h2
    cases hsk : (N.foldl addNoteRow s0).notes k with
    | none => rw [hsk] at h2; exact absurd h2 (by simp)
    | some n0 =>
      rw [hsk] at h2
      simp only [Option.map_some'] at h2
      injection h2 with h2
      have hw : nk.childToBranch c = (wireNote k n0 B).childToBranch c := by
        rw [h2]
        exact congrFun (attrWireNote_fields _ k _ A).2.2.2.2.2.2 c
      rw [hw, wireNote_ctb, hrow] at hctb
      dsimp only at hctb
      injection hctb with hb
      exact ⟨row, hm, hb⟩

theorem foldl_setBranch_char (Bl : List Row) (m : StrMap Branch) (q : String) :
    (Bl.foldl (fun m2 row => m2.set row.branchId (Branch.fromRow row)) m) q =
      match lastWhere (fun row => row.branchId = q) Bl with
      | some row => some (Branch.fromRow row)
      | none => m q :=
  foldl_set_char (fun row => row.branchId) (fun row => Branch.fromRow row) Bl m q

theorem foldl_setAttr_idem (Al : List Row) (m : StrMap Attribute) :
    Al.foldl (fun m2 a => m2.set a.attributeId (Attribute.fromRow a))
        (Al.foldl (fun m2 a => m2.set a.attributeId (Attribute.fromRow a)) m)
      = Al.foldl (fun m2 a => m2.set a.attributeId (Attribute.fromRow a)) m :=
  foldl_set_idem (fun a => a.attributeId) (fun a => Attribute.fromRow a) Al m

/-- C5: `addResp` is idempotent up to graph isomorphism: replaying an
identical batch over the store produced by a first merge succeeds and yields
a store describing the same graph — equivalent notes (equal fields and
mappings, adjacency and index lists equal as sets) and equal branch,
attribute and payload-cache maps. -/
theorem c5_addResp_idempotent (s0 : Store) (N B A : List Row) (s1 : Store)
    (h : addResp s0 N B A = some s1) :
    ∃ s2, addResp s1 N B A = some s2 ∧ StoreEquiv s2 s1 := by
  obtain ⟨hnotes1, hbr1, hattr1, hcompl1, hA1⟩ := addResp_char s0 N B A s1 h
  have hcoh := detachCoh_of_run s0 N B A s1 h
  obtain ⟨hinvI, hinvII, hinvIII, hinvIV, hinvV, hinvVI⟩ := noteP_inv N B s1 hcoh
  have hsucc2 : ∀ a ∈ A,
      ((B.foldl addBranchRow (N.foldl addNoteRow s1)).notes a.noteId).isSome = true := by
    intro a ha
    rw [branchP_notes]
    have h2 := hinvI a.noteId
    have h4 := hA1 a ha
    cases hx : (N.foldl addNoteRow s1).notes a.noteId with
    | some n => rfl
    | none =>
      rw [hx, hnotes1 a.noteId] at h2
      cases hy : (N.foldl addNoteRow s0).notes a.noteId with
      | some n => rw [hy] at h2; simp at h2
      | none => rw [hy] at h4; simp at h4
  have hrun2ex : ∃ s2, addResp s1 N B A = some s2 := ⟨_, attrP_char A _ hsucc2⟩
  obtain ⟨s2, hrun2⟩ := hrun2ex
  obtain ⟨hnotes2, hbrs2, hattrs2, hcompl2, -⟩ := addResp_char s1 N B A s2 hrun2
  have hK : (fun q => ((N.foldl addNoteRow s1).notes q).isSome)
      = (fun q => ((N.foldl addNoteRow s0).notes q).isSome) := by
    funext q
    rw [hinvI q, hnotes1 q]
    cases (N.foldl addNoteRow s0).notes q <;> rfl
  refine ⟨s2, hrun2, ?_, ?_, ?_, ?_⟩
  · intro k
    cases hs1k : s1.notes k with
    | none =>
      left
      refine ⟨?_, rfl⟩
      rw [hnotes2 k]
      have h2 := hinvI k
      rw [hs1k] at h2
      cases hn : (N.foldl addNoteRow s1).notes k with
      | none => rfl
      | some vk => rw [hn] at h2; exact absurd h2 (by simp)
    | some n1 =>
      right
      have h2 := hinvI k
      rw [hs1k] at h2
      cases hn : (N.foldl addNoteRow s1).notes k with
      | none => rw [hn] at h2; exact absurd h2 (by simp)
      | some vk =>
        have h1k := hnotes1 k
        rw [hs1k] at h1k
        cases hlast : lastNoteRowFor N k with
        | some row0 =>
          have hvk := hinvII k row0 hlast
          rw [hn] at hvk
          injection hvk with hvk
          have hs0k := noteP_fresh N s0 k row0 hlast
          rw [hs0k] at h1k
          simp only [Option.map_some'] at h1k
          injection h1k with h1k
          refine ⟨attrWireNote (fun q => ((N.foldl addNoteRow s0).notes q).isSome) k
              (wireNote k vk B) A, n1, ?_, rfl, ?_⟩
          · rw [hnotes2 k, hn]
            simp only [Option.map_some']
            rw [hK]
          · rw [hvk, h1k]
            exact noteEquiv_refl _
        | none =>
          have hbound := hinvIII k n1 vk hlast hs1k hn
          obtain ⟨hb1, hb2, hb3, hb4, hb5, hb6, hb7, hb8, hb9, hb10, hb11⟩ := hbound
          cases hs0k : (N.foldl addNoteRow s0).notes k with
          | none => rw [hs0k] at h1k; exact absurd h1k (by simp)
          | some n0 =>
            rw [hs0k] at h1k
            simp only [Option.map_some'] at h1k
            injection h1k with h1k
            have hedge_par : ∀ p, hasEdgeRow B k p → p ∈ n1.parents := by
              intro p hp
              rw [h1k, (attrWireNote_fields _ k _ A).2.2.2.1]
              exact (wireNote_parents_mem k n0 B p).mpr (Or.inr hp)
            have hedge_chl : ∀ c, hasEdgeRow B c k → c ∈ n1.children := by
              intro c hc
              rw [h1k, (attrWireNote_fields _ k _ A).2.2.2.2.1]
              exact (wireNote_children_mem k n0 B c).mpr (Or.inr hc)
            have hn1ptb : ∀ q, n1.parentToBranch q =
                match lastEdgeRowFor B k q with
                | some row => some row.branchId
                | none => n0.parentToBranch q := by
              intro q
              rw [h1k, congrFun (attrWireNote_fields _ k _ A).2.2.2.2.2.1 q]
              exact wireNote_ptb k n0 B q
            have hn1ctb : ∀ q, n1.childToBranch q =
                match lastEdgeRowFor B q k with
                | some row => some row.branchId
                | none => n0.childToBranch q := by
              intro q
              rw [h1k, congrFun (attrWireNote_fields _ k _ A).2.2.2.2.2.2 q]
              exact wireNote_ctb k n0 B q
            refine ⟨attrWireNote (fun q => ((N.foldl addNoteRow s0).notes q).isSome) k
                (wireNote k vk B) A, n1, ?_, rfl, ?_⟩
            · rw [hnotes2 k, hn]
              simp only [Option.map_some']
              rw [hK]
            · refine ⟨?_, ?_, ?_, ?_, ?_, ?_, ?_, ?_, ?_⟩
              · exact ((attrWireNote_fields _ k _ A).1).trans
                  (((wireNote_fields k vk B).1).trans hb1)
              · exact ((attrWireNote_fields _ k _ A).2.1).trans
                  (((wireNote_fields k vk B).2.1).trans hb2)
              · exact ((attrWireNote_fields _ k _ A).2.2.1).trans
                  (((wireNote_fields k vk B).2.2.1).trans hb3)
              · intro p
                rw [(attrWireNote_fields _ k _ A).2.2.2.1, wireNote_parents_mem]
                constructor
                · rintro (h2 | h2)
                  · exact hb4 p h2
                  · exact hedge_par p h2
                · intro h2
                  exact hb5 p h2
              · intro c
                rw [(attrWireNote_fields _ k _ A).2.2.2.2.1, wireNote_children_mem]
                constructor
                · rintro (h2 | h2)
                  · exact hb6 c h2
                  · exact hedge_chl c h2
                · intro h2
                  exact hb7 c h2
              · rw [(attrWireNote_fields _ k _ A).2.2.2.2.2.1]
                funext q
                rw [wireNote_ptb, hn1ptb q]
                cases hLE : lastEdgeRowFor B k q with
                | some row => rfl
                | none =>
                  rcases hb8 q with h2 | ⟨h2, hedge⟩
                  · rw [h2, hn1ptb q, hLE]
                  · exact absurd hedge (lastEdgeRowFor_eq_none B k q hLE)
              · rw [(attrWireNote_fields _ k _ A).2.2.2.2.2.2]
                funext q
                rw [wireNote_ctb, hn1ctb q]
                cases hLE : lastEdgeRowFor B q k with
                | some row => rfl
                | none =>
                  rcases hb9 q with h2 | ⟨h2, hedge⟩
                  · rw [h2, hn1ctb q, hLE]
                  · exact absurd hedge (lastEdgeRowFor_eq_none B q k hLE)
              · intro x
                rw [attrWireNote_attrs_mem, (wireNote_fields k vk B).2.2.2.1, hb10]
                constructor
                · rintro (h2 | h2)
                  · exact h2
                  · rw [h1k, attrWireNote_attrs_mem]
                    exact Or.inr h2
                · exact Or.inl
              · intro x
                rw [attrWireNote_tr_mem, (wireNote_fields k vk B).2.2.2.2, hb11]
                constructor
                · rintro (h2 | h2)
                  · exact h2
                  · rw [h1k, attrWireNote_tr_mem]
                    exact Or.inr h2
                · exact Or.inl
  · rw [hbrs2, hbr1]
    funext q
    rw [foldl_setBranch_char, foldl_setBranch_char]
    cases hq : lastWhere (fun row => row.branchId = q) B with
    | some row => rfl
    | none =>
      have hnb : ¬isBatchBranchId B q := by
        intro hbatch
        obtain ⟨row, hm, hbid⟩ := hbatch
        exact (lastWhere_eq_none_iff _ B).mp hq row hm hbid
      have h2 := hinvIV q hnb
      rw [h2, hbr1, foldl_setBranch_char, hq]
  · rw [hattrs2, hinvV, hattr1]
    exact foldl_setAttr_idem A ((N.foldl addNoteRow s0).attributes)
  · rw [hcompl2, hinvVI]

theorem c5_witness :
    addResp Store.empty c5N c5B c5A = some c5S1 ∧
    ∃ s2, addResp c5S1 c5N c5B c5A = some s2 ∧ StoreEquiv s2 c5S1 :=
  ⟨rfl, c5_addResp_idempotent Store.empty c5N c5B c5A c5S1 rfl⟩
